import Mathlib

/-!
A verification development for the `DataStore` class of
`forte/data/data_store.py`: an in-memory record store over interval
("annotation") records, kept simultaneously in a per-type sorted container
(`__elements`) and a global identity index (`__entry_dict`).

Records are Python list objects shared by reference between the two
indices.  Following the arena modelling suggested by the design notes,
records live in an explicit arena (`heap`) keyed by their `tid` (tids are
unique and never reassigned, so the tid is a stable handle), and both
indices hold tid handles.  Mutating a record through one access path is
then visible through the other, exactly as for the shared Python object.

`uuid.uuid4().int` is modelled by passing the fresh tid explicitly to
`add_annotation_raw`; freshness is a hypothesis of the theorems.

Mutating operations return a pair of an `Except` outcome and the resulting
store, so that the state left behind by a raising call is observable
(Python exceptions do not roll back earlier mutations).
-/

deriving instance DecidableEq for Except

namespace Forte

/-- Modelled from the spec: the `forte.common.constants` module is not part
of the sources, but both the spec (fields 0..3 are the fixed prefix:
begin, end, id, type-name; attribute slots start at offset 4) and the
docstrings in `data_store.py` fix the layout of an annotation entry as
`[begin, end, tid, type_name, attr_1, ..., attr_n]`. -/
def BEGIN_INDEX : Nat := 0

/-- Modelled from the spec: index of the `end` field of an entry. -/
def END_INDEX : Nat := 1

/-- Modelled from the spec: index of the `tid` field of an entry. -/
def TID_INDEX : Nat := 2

/-- Modelled from the spec: index of the `type_name` field of an entry. -/
def ENTRY_TYPE_INDEX : Nat := 3

/-- First attribute slot offset: `constants.ENTRY_TYPE_INDEX + 1`, the
start value of `attr_idx` in `_get_type_info`. -/
def ATTR_BASE : Nat := ENTRY_TYPE_INDEX + 1

/-- Python exception kinds raised by `data_store.py`, tagged with (abbreviated)
messages so that distinct failure modes of one exception class stay
distinguishable. -/
inductive PyErr where
  | keyError (msg : String)
  | valueError (msg : String)
  | runtimeError (msg : String)
  | indexError (msg : String)
  | typeError (msg : String)
  | notImplementedError
deriving DecidableEq, Repr

/-- An annotation-like `entry data` list
`[begin, end, tid, type_name, attr_1, ..., attr_n]`.  The four prefix
fields are named; `attrs` holds the attribute slots from offset
`ATTR_BASE = 4` onward (`attrs[i]` models `entry[i + 4]`), each `none`
until set.  `V` is the type of user attribute values.  Link/group entries
(with a trailing `index_id` field) are never constructed: `add_link_raw`
and `add_group_raw` raise `NotImplementedError`. -/
structure Entry (V : Type) where
  begin : Int
  end_ : Int
  tid : Nat
  type_name : String
  attrs : List (Option V)
deriving DecidableEq, Repr

/-- The value of `self._type_attributes[type_name]`: the attribute-to-index
dictionary (kept in declaration order) and the parent entry set (left
empty by `_get_type_info`). -/
structure TypeInfo where
  attributes : List (String × Nat)
  parent_entry : List String
deriving DecidableEq, Repr

/-- The external collaborators of the store, consumed as injected
capabilities: `isAnnotation` models `_is_annotation` (an
`issubclass (get_class tn) (Annotation, AudioAnnotation)` check),
`isSubclass a b` models `issubclass (get_class a) (get_class b)` as used
by `get`, and `attributesOf` models `_get_entry_attributes_by_class`
(dataclass field introspection). -/
structure Env where
  isAnnotation : String → Bool
  isSubclass : String → String → Bool
  attributesOf : String → List String

/-- `O(n)` lookup in an association list modelling a Python dict
(first matching key wins; keys are kept distinct by construction). -/
def lookupKV {κ α : Type _} [DecidableEq κ] : List (κ × α) → κ → Option α
  | [], _ => none
  | (k0, v0) :: rest, k => if k0 = k then some v0 else lookupKV rest k

/-- Dict assignment `d[k] = v`: update in place when the key is present
(preserving dict insertion order), append as the newest key otherwise. -/
def setKV {κ α : Type _} [DecidableEq κ] : List (κ × α) → κ → α → List (κ × α)
  | [], k, v => [(k, v)]
  | (k0, v0) :: rest, k, v =>
    if k0 = k then (k, v) :: rest else (k0, v0) :: setKV rest k v

/-- Dict deletion `d.pop(k)` (drops the first, hence only, binding of `k`). -/
def removeKV {κ α : Type _} [DecidableEq κ] : List (κ × α) → κ → List (κ × α)
  | [], _ => []
  | (k0, v0) :: rest, k => if k0 = k then rest else (k0, v0) :: removeKV rest k

/-- A record used to dereference a handle that is not in the arena.  A
dangling handle never occurs in a store built by the operations. -/
def junkEntry (V : Type) : Entry V := ⟨0, 0, 0, "", []⟩

/-- Dereference a tid handle through the arena. -/
def derefD {V : Type} (heap : List (Nat × Entry V)) (t : Nat) : Entry V :=
  (lookupKV heap t).getD (junkEntry V)

/-- Dereference a whole container of handles. -/
def derefList {V : Type} (heap : List (Nat × Entry V)) (l : List Nat) : List (Entry V) :=
  l.map (derefD heap)

/-- The sort key of a stored record: the tuple `(s[0], s[1])`, i.e.
`(begin, end)`, as passed to `SortedList(key=lambda s: (s[0], s[1]))`. -/
def keyOf {V : Type} (heap : List (Nat × Entry V)) (t : Nat) : Int × Int :=
  ((derefD heap t).begin, (derefD heap t).end_)

/-- Strict lexicographic comparison of `(begin, end)` keys (Python tuple `<`). -/
def keyLt (a b : Int × Int) : Bool :=
  decide (a.1 < b.1) || (decide (a.1 = b.1) && decide (a.2 < b.2))

/-- Non-strict lexicographic comparison of `(begin, end)` keys (Python tuple `<=`). -/
def keyLe (a b : Int × Int) : Bool :=
  decide (a.1 < b.1) || (decide (a.1 = b.1) && decide (a.2 ≤ b.2))

/-- Python list comparison `x < y` on two entry-data lists, as invoked by
the stdlib `bisect_left` inside `delete_entry`.  Elementwise: the first
unequal field decides.  Two distinct stored entries always differ by
field 2 (`tid`, unique) at the latest, so later fields are compared by
Python only when the two lists coincide on `(begin, end, tid)`; in that
case (an entry against itself) the comparison yields `False`. -/
def entryLt {V : Type} (x y : Entry V) : Bool :=
  if x.begin ≠ y.begin then decide (x.begin < y.begin)
  else if x.end_ ≠ y.end_ then decide (x.end_ < y.end_)
  else if x.tid ≠ y.tid then decide (x.tid < y.tid)
  else false

/-- The loop of CPython `bisect.bisect_left(a, x)`:
`while lo < hi: mid = (lo+hi)//2; if a[mid] < x: lo = mid+1 else: hi = mid`.
`delete_entry` calls this positionally on the per-type container (which is
sorted by `(begin, end)` only, not by full list comparison).  The width
`hi - lo` shrinks by at least one per iteration, so running the loop on
`hi - lo` units of fuel computes the exact CPython result. -/
def bisectLeftLoop {V : Type} (a : List (Entry V)) (x : Entry V) :
    Nat → Nat → Nat → Nat
  | 0, lo, _ => lo
  | fuel + 1, lo, hi =>
    if lo < hi then
      if entryLt (a.getD ((lo + hi) / 2) (junkEntry V)) x then
        bisectLeftLoop a x fuel ((lo + hi) / 2 + 1) hi
      else bisectLeftLoop a x fuel lo ((lo + hi) / 2)
    else lo

/-- CPython `bisect.bisect_left(a, x)` over the whole list. -/
def bisect_left {V : Type} (a : List (Entry V)) (x : Entry V) : Nat :=
  bisectLeftLoop a x a.length 0 a.length

/-- `SortedKeyList.add`: insert a handle keeping the container sorted by
key; an element whose key ties existing keys is placed after them
(the library bisects right on keys). `f` is the key of the handles
already present, `k` the key of the new record. -/
def insertByKey (f : Nat → Int × Int) (k : Int × Int) (tid : Nat) : List Nat → List Nat
  | [] => [tid]
  | t :: ts => if keyLe (f t) k then t :: insertByKey f k tid ts else tid :: t :: ts

/-- The store state: the type registry `_type_attributes` (dict, in
registration order), the per-type index `__elements` (dict from type name
to a container of record handles), the identity index `__entry_dict`
(the set of registered tids; each deereferences to the same arena record
as the per-type container slot), and the arena `heap` of record objects.
`dynamically_add_type` is the constructor flag (the store is constructed
with `onto_file_path=None`, so `_type_attributes` starts empty). -/
structure DataStore (V : Type) where
  dynamically_add_type : Bool
  type_attributes : List (String × TypeInfo)
  elements : List (String × List Nat)
  entry_dict : List Nat
  heap : List (Nat × Entry V)
deriving DecidableEq, Repr

/-- `DataStore(onto_file_path=None, dynamically_add_type=True)`. -/
def initStore (V : Type) : DataStore V := ⟨true, [], [], [], []⟩

/-- The `for attr_name in attributes` loop of `_get_type_info`, assigning
consecutive slot offsets from `attr_idx = ENTRY_TYPE_INDEX + 1 = 4` on. -/
def buildAttrDict : List String → Nat → List (String × Nat)
  | [], _ => []
  | a :: rest, i => (a, i) :: buildAttrDict rest (i + 1)

/-- `_get_type_info`: return the cached type info, or register the type
(attribute slots numbered consecutively from `ENTRY_TYPE_INDEX + 1 = 4`,
empty parent set) when dynamic addition is enabled; raise `ValueError`
otherwise. -/
def _get_type_info {V : Type} (env : Env) (st : DataStore V) (type_name : String) :
    Except PyErr TypeInfo × DataStore V :=
  match lookupKV st.type_attributes type_name with
  | some info => (Except.ok info, st)
  | none =>
    if ¬ st.dynamically_add_type then
      (Except.error (PyErr.valueError (type_name ++
        " is not an existing type in current data store. Dynamically add type is disabled.")), st)
    else
      let attr_dict := buildAttrDict (env.attributesOf type_name) ATTR_BASE
      let new_entry_info : TypeInfo := ⟨attr_dict, []⟩
      (Except.ok new_entry_info,
        { st with type_attributes := st.type_attributes ++ [(type_name, new_entry_info)] })

/-- `_get_type_attribute_dict`. -/
def _get_type_attribute_dict {V : Type} (env : Env) (st : DataStore V) (type_name : String) :
    Except PyErr (List (String × Nat)) × DataStore V :=
  match _get_type_info env st type_name with
  | (Except.error err, st1) => (Except.error err, st1)
  | (Except.ok info, st1) => (Except.ok info.attributes, st1)

/-- `_num_attributes_for_type`. -/
def _num_attributes_for_type {V : Type} (env : Env) (st : DataStore V) (type_name : String) :
    Except PyErr Nat × DataStore V :=
  match _get_type_attribute_dict env st type_name with
  | (Except.error err, st1) => (Except.error err, st1)
  | (Except.ok d, st1) => (Except.ok d.length, st1)

/-- `_new_annotation(type_name, begin, end)`: a fresh entry
`[begin, end, tid, type_name]` extended by one `None` slot per registered
attribute.  The fresh tid (`uuid.uuid4().int`) is an explicit argument. -/
def _new_annotation {V : Type} (env : Env) (st : DataStore V) (tid : Nat)
    (type_name : String) (b e : Int) : Except PyErr (Entry V) × DataStore V :=
  match _num_attributes_for_type env st type_name with
  | (Except.error err, st1) => (Except.error err, st1)
  | (Except.ok n, st1) =>
    (Except.ok ⟨b, e, tid, type_name, List.replicate n none⟩, st1)

/-- `add_annotation_raw(type_name, begin, end)`: build the entry, insert
its handle into the (possibly new) sorted per-type container, register the
same handle in the identity index, return the tid.  The record object is
allocated in the arena. -/
def add_annotation_raw {V : Type} (env : Env) (st : DataStore V) (tid : Nat)
    (type_name : String) (b e : Int) : Except PyErr Nat × DataStore V :=
  match _new_annotation env st tid type_name b e with
  | (Except.error err, st1) => (Except.error err, st1)
  | (Except.ok entry, st1) =>
    let heap1 := setKV st1.heap tid entry
    let elements1 :=
      match lookupKV st1.elements type_name with
      | some lst =>
        setKV st1.elements type_name (insertByKey (keyOf heap1) (entry.begin, entry.end_) tid lst)
      | none =>
        -- the except-KeyError branch: create the SortedList, then add
        st1.elements ++ [(type_name, insertByKey (keyOf heap1) (entry.begin, entry.end_) tid [])]
    (Except.ok tid,
      { st1 with heap := heap1, elements := elements1,
                 entry_dict := st1.entry_dict ++ [tid] })

/-- `set_attribute(tid, attr_name, attr_value)`: resolve the record through
the identity index, resolve the slot offset through its type descriptor,
write the slot in place (visible through both indices, since both hold the
same record).  The write `entry[attr_id] = attr_value` is modelled on the
attribute slots (`attrs[attr_id - 4]`): the registry never assigns an
offset below 4 (see the frame theorem below), and a slot offset at or past
the end of the record would raise `IndexError` in Python. -/
def set_attribute {V : Type} (env : Env) (st : DataStore V) (tid : Nat)
    (attr_name : String) (attr_value : V) : Except PyErr Unit × DataStore V :=
  if tid ∈ st.entry_dict then
    match lookupKV st.heap tid with
    | none => (Except.error (PyErr.keyError "Entry with tid not found."), st) -- dangling: unreachable
    | some entry =>
      match _get_type_attribute_dict env st entry.type_name with
      | (Except.error err, st1) => (Except.error err, st1)
      | (Except.ok attr_dict, st1) =>
        match lookupKV attr_dict attr_name with
        | none =>
          (Except.error (PyErr.keyError (entry.type_name ++ " has no " ++ attr_name ++ " attribute.")), st1)
        | some attr_id =>
          if attr_id < ATTR_BASE then
            -- a write inside the fixed prefix: never produced by the registry
            (Except.error (PyErr.typeError "attribute offset inside fixed prefix"), st1)
          else if attr_id - ATTR_BASE < entry.attrs.length then
            let entry1 : Entry V :=
              { entry with attrs := entry.attrs.set (attr_id - ATTR_BASE) (some attr_value) }
            (Except.ok (), { st1 with heap := setKV st1.heap tid entry1 })
          else
            (Except.error (PyErr.indexError "list assignment index out of range"), st1)
  else (Except.error (PyErr.keyError "Entry with tid not found."), st)

/-- `get_attribute(tid, attr_name)`: symmetric read of the slot. -/
def get_attribute {V : Type} (env : Env) (st : DataStore V) (tid : Nat)
    (attr_name : String) : Except PyErr (Option V) × DataStore V :=
  if tid ∈ st.entry_dict then
    match lookupKV st.heap tid with
    | none => (Except.error (PyErr.keyError "Entry with tid not found."), st) -- dangling: unreachable
    | some entry =>
      match _get_type_attribute_dict env st entry.type_name with
      | (Except.error err, st1) => (Except.error err, st1)
      | (Except.ok attr_dict, st1) =>
        match lookupKV attr_dict attr_name with
        | none =>
          (Except.error (PyErr.keyError (entry.type_name ++ " has no " ++ attr_name ++ " attribute.")), st1)
        | some attr_id =>
          if attr_id < ATTR_BASE then
            (Except.error (PyErr.typeError "attribute offset inside fixed prefix"), st1)
          else
            match entry.attrs.get? (attr_id - ATTR_BASE) with
            | some v => (Except.ok v, st1)
            | none => (Except.error (PyErr.indexError "list index out of range"), st1)
  else (Except.error (PyErr.keyError "Entry with tid not found."), st)

/-- `_delete_entry_by_loc(type_name, index_id)`: positional removal from
the per-type container; when the container becomes empty its type-name
key is dropped from `__elements`. -/
def _delete_entry_by_loc {V : Type} (st : DataStore V) (type_name : String)
    (index_id : Nat) : Except PyErr Unit × DataStore V :=
  match lookupKV st.elements type_name with
  | none =>
    (Except.error (PyErr.keyError "The specified type does not exist in current entry lists."), st)
  | some target_list =>
    if index_id ≥ target_list.length then
      (Except.error (PyErr.indexError "The specified index_id is out of boundary."), st)
    else
      let l1 := target_list.eraseIdx index_id
      if l1.isEmpty then (Except.ok (), { st with elements := removeKV st.elements type_name })
      else (Except.ok (), { st with elements := setKV st.elements type_name l1 })

/-- The locate-and-remove phase of `delete_entry`, run on the store `st1`
from which the identity index entry has already been popped: find the
per-type container of the record, for an annotation type compute the
record position with the stdlib `bisect_left` (whole-entry list
comparison), check that the computed slot holds an equal record, and
remove it positionally. -/
def deleteLocate {V : Type} [DecidableEq V] (env : Env) (st1 : DataStore V)
    (entry_data : Entry V) : Except PyErr Unit × DataStore V :=
  match lookupKV st1.elements entry_data.type_name with
  | none =>
    (Except.error (PyErr.runtimeError
      "When deleting entry, its type does not exist in current entry lists."), st1)
  | some target_list =>
    if env.isAnnotation entry_data.type_name then
      if bisect_left (derefList st1.heap target_list) entry_data ≥ target_list.length then
        (Except.error (PyErr.runtimeError
          "When deleting entry, entry data is not found in the target list."), st1)
      else if derefD st1.heap
          (target_list.getD (bisect_left (derefList st1.heap target_list) entry_data) 0)
          ≠ entry_data then
        (Except.error (PyErr.runtimeError
          "When deleting entry, entry data is not found in the target list."), st1)
      else
        _delete_entry_by_loc st1 entry_data.type_name
          (bisect_left (derefList st1.heap target_list) entry_data)
    else
      (Except.error (PyErr.typeError "trailing index_id field is not an int"), st1)

/-- `delete_entry(tid)`: pop the tid from the identity index first, then
locate and remove the record from its per-type container
(`deleteLocate`).  A raise after the pop leaves the identity index
already mutated.  For non-annotation types the code reads the trailing
`index_id` field (`entry_data[-1]`); an annotation-shaped record has no
such field (and link/group records cannot be created), so that branch is
modelled as the `TypeError` Python would raise when comparing the
trailing `None` slot with an int. -/
def delete_entry {V : Type} [DecidableEq V] (env : Env) (st : DataStore V) (tid : Nat) :
    Except PyErr Unit × DataStore V :=
  if tid ∈ st.entry_dict then
    match lookupKV st.heap tid with
    | none => (Except.error (PyErr.keyError "dangling handle"), st) -- unreachable
    | some entry_data =>
      deleteLocate env { st with entry_dict := st.entry_dict.erase tid } entry_data
  else
    (Except.error (PyErr.keyError
      "The specified tid does not correspond to an existing entry data"), st)

/-- `get_entry(tid)`: the record and its type name; `ValueError` for an
unknown tid, `KeyError` when the type has no per-type container. -/
def get_entry {V : Type} (st : DataStore V) (tid : Nat) :
    Except PyErr (Entry V × String) :=
  if tid ∈ st.entry_dict then
    match lookupKV st.heap tid with
    | none => Except.error (PyErr.valueError "dangling handle") -- unreachable
    | some entry =>
      match lookupKV st.elements entry.type_name with
      | none => Except.error (PyErr.keyError "Entry of type is not found.")
      | some _ => Except.ok (entry, entry.type_name)
  else Except.error (PyErr.valueError "Entry with tid not found.")

/-- `get_entry_index(tid)`: for an annotation type, `SortedKeyList.bisect_left`
by the `(begin, end)` key — the leftmost container slot whose key is not
below the record's key (on the key-sorted containers the library maintains,
this is the number of slots with a strictly smaller key) — then a
single-slot tid comparison; `ValueError` when that slot does not hold this
tid.  For non-annotation types the code returns the trailing `index_id`
field, which an annotation-shaped record does not have (see `delete_entry`). -/
def get_entry_index {V : Type} (env : Env) (st : DataStore V) (tid : Nat) :
    Except PyErr Nat :=
  match get_entry st tid with
  | Except.error err => Except.error err
  | Except.ok (entry, entry_type) =>
    if env.isAnnotation entry_type then
      match lookupKV st.elements entry_type with
      | none => Except.error (PyErr.keyError "Entry of type is not found.") -- unreachable: checked by get_entry
      | some entry_list =>
        let index_id := entry_list.countP (fun t => keyLt (keyOf st.heap t) (entry.begin, entry.end_))
        if index_id < entry_list.length then
          if (derefD st.heap (entry_list.getD index_id 0)).tid = entry.tid then
            Except.ok index_id
          else Except.error (PyErr.valueError "Entry not found in entry list.")
        else Except.error (PyErr.valueError "Entry not found in entry list.")
    else Except.error (PyErr.typeError "trailing index_id field is not an int")

/-- An item of the min-heap in `co_iterator_annotation_like`: the ordering
tuple `((begin, end, p_idx), type_name)`. -/
abbrev HeapItem : Type := (Int × Int × Nat) × String

/-- Lexicographic comparison of the `(begin, end, p_idx)` ordering tuples. -/
def tripleLe (a b : Int × Int × Nat) : Bool :=
  decide (a.1 < b.1) ||
    (decide (a.1 = b.1) &&
      (decide (a.2.1 < b.2.1) || (decide (a.2.1 = b.2.1) && decide (a.2.2 ≤ b.2.2))))

/-- `heappop`: remove a minimal item.  At any point the heap holds at most
one item per stream index `p_idx`, so the `(begin, end, p_idx)` tuples are
pairwise distinct and the minimum is unique; ties (never reached) go to
the earlier item. -/
def heapPopMin : List HeapItem → Option (HeapItem × List HeapItem)
  | [] => none
  | x :: xs =>
    match heapPopMin xs with
    | none => some (x, [])
    | some (m, rest) => if tripleLe x.1 m.1 then some (x, xs) else some (m, x :: rest)

/-- The record at container position `i` of the type-name container:
`self.__elements[type_name][i]`, dereferenced through the arena. -/
def entryAt {V : Type} (st : DataStore V) (type_name : String) (i : Nat) : Entry V :=
  derefD st.heap (((lookupKV st.elements type_name).getD []).getD i 0)

/-- The body of the `while h:` loop of `co_iterator_annotation_like`: pop
the minimal ordering tuple, locate the current entry of its stream through
`__elements[type_name][pointers[p_idx]]`, push the tuple of the next entry
of that stream if one exists, and yield the current entry.  The loop runs
at most (sum of the named container lengths) times — each stream `p` is
seeded once and pushed at most `len_p - 1` times — so that amount of fuel
computes the full yielded sequence. -/
def coIterLoop {V : Type} (st : DataStore V) :
    Nat → List Nat → List HeapItem → List (Entry V)
  | 0, _, _ => []
  | fuel + 1, pointers, h =>
    match heapPopMin h with
    | none => []
    | some (((_, _, p_idx), type_name), h1) =>
      -- `pointer`, `lst`, `entry`, `new_entry` of the source are inlined:
      -- pointer = pointers.getD p_idx 0, lst = the container of type_name,
      -- entry/new_entry = the records at pointer and pointer + 1
      if pointers.getD p_idx 0 + 1 < ((lookupKV st.elements type_name).getD []).length then
        entryAt st type_name (pointers.getD p_idx 0) ::
          coIterLoop st fuel (pointers.set p_idx (pointers.getD p_idx 0 + 1))
            (h1 ++ [(((entryAt st type_name (pointers.getD p_idx 0 + 1)).begin,
                      (entryAt st type_name (pointers.getD p_idx 0 + 1)).end_, p_idx),
                     (entryAt st type_name (pointers.getD p_idx 0 + 1)).type_name)])
      else entryAt st type_name (pointers.getD p_idx 0) :: coIterLoop st fuel pointers h1

/-- `first_entries`: the first record of each named container, in input
order; `ValueError` for a type name with no container (the `KeyError`
branch) or with an empty container (the `IndexError` branch). -/
def coSeed {V : Type} (st : DataStore V) : List String → Except PyErr (List (Entry V))
  | [] => Except.ok []
  | tn :: rest =>
    match lookupKV st.elements tn with
    | none =>
      Except.error (PyErr.valueError ("type name " ++ tn ++ " is not recognized"))
    | some l =>
      match l with
      | [] => Except.error (PyErr.valueError ("Entry list of type name " ++ tn ++ " is empty"))
      | t :: _ =>
        match coSeed st rest with
        | Except.error err => Except.error err
        | Except.ok firsts => Except.ok (derefD st.heap t :: firsts)

/-- `co_iterator_annotation_like(type_names)`: validate and collect the
first record of every named container, seed the min-heap with their
ordering tuples `((begin, end, p_idx), type_name)`, then run the k-way
merge loop.  The whole (finite) yielded sequence is returned as a list. -/
def co_iterator_annotation_like {V : Type} (st : DataStore V)
    (type_names : List String) : Except PyErr (List (Entry V)) :=
  match coSeed st type_names with
  | Except.error err => Except.error err
  | Except.ok first_entries =>
    let n := type_names.length
    let pointers := List.replicate n 0
    let h := first_entries.enum.map (fun pe => ((pe.2.begin, pe.2.end_, pe.1), pe.2.type_name))
    let fuel := (type_names.map (fun tn => ((lookupKV st.elements tn).getD []).length)).sum
    Except.ok (coIterLoop st fuel pointers h)

/-- `get(type_name, include_sub_type)`: with `include_sub_type=True`, scan
the registered containers in registration order, keep those whose type is
classified a (reflexive) subclass of `type_name`, and yield their records
container by container in stored order; with `include_sub_type=False`,
yield the single named container, raising `KeyError` when absent. -/
def get {V : Type} (env : Env) (st : DataStore V) (type_name : String)
    (include_sub_type : Bool) : Except PyErr (List (Entry V)) :=
  if include_sub_type then
    let all_types := (st.elements.map Prod.fst).filter (fun t => env.isSubclass t type_name)
    Except.ok (all_types.flatMap
      (fun t => derefList st.heap ((lookupKV st.elements t).getD [])))
  else
    match lookupKV st.elements type_name with
    | none => Except.error (PyErr.keyError ("type " ++ type_name ++ " does not exist"))
    | some entries => Except.ok (derefList st.heap entries)

/-- The public mutating calls of the store facade, with the tid that
`uuid.uuid4()` returns for an `add` call made explicit. -/
inductive Op (V : Type) where
  | add (tid : Nat) (type_name : String) (b e : Int)
  | del (tid : Nat)
  | set (tid : Nat) (attr_name : String) (v : V)

/-- Stores reachable from a freshly constructed `DataStore` by any sequence
of `add_annotation_raw`, `delete_entry` and `set_attribute` calls,
successful or not (a raising call still contributes the state it leaves
behind).  The side condition on `add` says the generated tid is fresh,
which is the contract of `uuid.uuid4`. -/
inductive Reachable {V : Type} [DecidableEq V] (env : Env) : DataStore V → Prop where
  | init : Reachable env (initStore V)
  | add {st : DataStore V} {tid : Nat} {tn : String} {b e : Int} :
      Reachable env st → lookupKV st.heap tid = none →
      Reachable env (add_annotation_raw env st tid tn b e).2
  | del {st : DataStore V} {tid : Nat} :
      Reachable env st → Reachable env (delete_entry env st tid).2
  | set {st : DataStore V} {tid : Nat} {attr_name : String} {v : V} :
      Reachable env st → Reachable env (set_attribute env st tid attr_name v).2

/-! ### A concrete store exhibiting the (begin, end) tie-handling defect

Two annotations of the same type with the same span `(0, 5)` are added;
`uuid.uuid4` returns 100 for the first and 50 for the second.
`SortedKeyList.add` places a key-tie after the existing entries, so the
container holds the records in tid order `[100, 50]`, which is not sorted
under whole-entry list comparison.  The stdlib `bisect_left` inside
`delete_entry` (which compares whole entries) and the single-slot tid check
inside `get_entry_index` then both miss the record with tid 50. -/

/-- Environment for the concrete stores: every type is an annotation type
with no attributes. -/
def tieEnv : Env := ⟨fun _ => true, fun _ _ => true, fun _ => []⟩

/-- The store after `add_annotation_raw("T", 0, 5)` twice, with generated
tids 100 then 50. -/
def tieStore : DataStore Nat :=
  (add_annotation_raw tieEnv (add_annotation_raw tieEnv (initStore Nat) 100 "T" 0 5).2
    50 "T" 0 5).2

/-! ### Store invariants -/

/-- The handle container of a type name (`self.__elements[type_name]`,
empty for an unregistered type). -/
def containerOf {V : Type} (st : DataStore V) (type_name : String) : List Nat :=
  (lookupKV st.elements type_name).getD []

/-- The records of a per-type container, in stored order. -/
def containerEntries {V : Type} (st : DataStore V) (type_name : String) : List (Entry V) :=
  derefList st.heap (containerOf st type_name)

/-- A per-type container is sorted by the `(begin, end)` keys of its
records. -/
def containerSorted {V : Type} (st : DataStore V) (type_name : String) : Prop :=
  List.Pairwise (fun a b => keyLe (keyOf st.heap a) (keyOf st.heap b) = true)
    (containerOf st type_name)

/-- Every per-type container of the store is sorted by `(begin, end)`. -/
def storeSorted {V : Type} (st : DataStore V) : Prop :=
  ∀ type_name, containerSorted st type_name

/-- Every handle held by a per-type container is allocated in the arena
(no container slot dangles). -/
def containersAllocated {V : Type} (st : DataStore V) : Prop :=
  ∀ type_name, ∀ t ∈ containerOf st type_name, (lookupKV st.heap t).isSome = true

/-- Well-formedness of the type registry: every attribute slot offset lies
in the attribute block `[ATTR_BASE, ATTR_BASE + number of attributes)`,
i.e. at or after the fixed four-field prefix. -/
def RegWf {V : Type} (st : DataStore V) : Prop :=
  ∀ p ∈ st.type_attributes, ∀ q ∈ p.2.attributes,
    ATTR_BASE ≤ q.2 ∧ q.2 - ATTR_BASE < p.2.attributes.length

/-- The registered type names are pairwise distinct (`__elements` is a
Python dict). -/
def elemsNodup {V : Type} (st : DataStore V) : Prop :=
  (st.elements.map Prod.fst).Nodup

/-- The store invariant maintained by every facade call. -/
def StoreInv {V : Type} (st : DataStore V) : Prop :=
  RegWf st ∧ storeSorted st ∧ containersAllocated st ∧ elemsNodup st

/-! ### Notions for the k-way merge specification -/

/-- The index of the first occurrence of a type name in the input
`type_names` list (the tie-breaking component of the merge ordering). -/
def idxOfName : List String → String → Nat
  | [], _ => 0
  | n0 :: rest, tn => if n0 = tn then 0 else idxOfName rest tn + 1

/-- The ordering triple of a yielded record:
`(begin, end, index of its type name in the input list)`. -/
def entryTriple {V : Type} (names : List String) (en : Entry V) : Int × Int × Nat :=
  (en.begin, en.end_, idxOfName names en.type_name)

/-- The stream index `p_idx` stored in a heap item. -/
def streamIdx (it : HeapItem) : Nat := it.1.2.2

/-- The record at position `i` of the container of the `p`-th input type
name. -/
def entAt {V : Type} (st : DataStore V) (names : List String) (p i : Nat) : Entry V :=
  (containerEntries st (names.getD p "")).getD i (junkEntry V)

/-- The heap item the loop pushes for stream `p` at container position
`i`. -/
def mkItem {V : Type} (st : DataStore V) (names : List String) (p i : Nat) : HeapItem :=
  (((entAt st names p i).begin, (entAt st names p i).end_, p), (entAt st names p i).type_name)

/-- The loop invariant of `coIterLoop`: one pointer per stream, at most
one heap item per stream, and every heap item is the ordering tuple of
the record its stream pointer currently designates. -/
def CoInv {V : Type} (st : DataStore V) (names : List String)
    (pointers : List Nat) (h : List HeapItem) : Prop :=
  pointers.length = names.length ∧
  (h.map streamIdx).Nodup ∧
  ∀ it ∈ h, streamIdx it < names.length ∧
    pointers.getD (streamIdx it) 0 <
      (containerEntries st (names.getD (streamIdx it) "")).length ∧
    it = mkItem st names (streamIdx it) (pointers.getD (streamIdx it) 0)

/-- The records stream `p` still has to yield: its container suffix from
the current pointer on while the stream is active, nothing once its item
has left the heap. -/
def coRemStream {V : Type} (st : DataStore V) (names : List String)
    (pointers : List Nat) (h : List HeapItem) (p : Nat) : List (Entry V) :=
  if p ∈ h.map streamIdx then
    (containerEntries st (names.getD p "")).drop (pointers.getD p 0)
  else []

/-- All records the loop still has to yield, stream by stream. -/
def coRem {V : Type} (st : DataStore V) (names : List String)
    (pointers : List Nat) (h : List HeapItem) : List (Entry V) :=
  (List.range names.length).flatMap (coRemStream st names pointers h)

/-! ### Association list and arena lemmas -/

theorem lookupKV_mem {κ α : Type _} [DecidableEq κ] {l : List (κ × α)} {k : κ} {v : α}
    (h : lookupKV l k = some v) : (k, v) ∈ l := by
  induction l with
  | nil => exact absurd h (by simp [lookupKV])
  | cons kv rest ih =>
    obtain ⟨k0, v0⟩ := kv
    rw [lookupKV] at h
    by_cases he : k0 = k
    · rw [if_pos he] at h
      cases h
      exact he ▸ List.mem_cons_self _ _
    · rw [if_neg he] at h
      exact List.mem_cons_of_mem _ (ih h)

theorem lookupKV_setKV_self {κ α : Type _} [DecidableEq κ] (l : List (κ × α)) (k : κ) (v : α) :
    lookupKV (setKV l k v) k = some v := by
  induction l with
  | nil => simp [setKV, lookupKV]
  | cons kv rest ih =>
    obtain ⟨k0, v0⟩ := kv
    by_cases he : k0 = k
    · simp [setKV, he, lookupKV]
    · simp [setKV, he, lookupKV, ih]

theorem lookupKV_setKV_ne {κ α : Type _} [DecidableEq κ] (l : List (κ × α)) (k k2 : κ) (v : α)
    (h : k ≠ k2) : lookupKV (setKV l k v) k2 = lookupKV l k2 := by
  induction l with
  | nil => simp [setKV, lookupKV, h]
  | cons kv rest ih =>
    obtain ⟨k0, v0⟩ := kv
    by_cases he : k0 = k
    · subst he; simp [setKV, lookupKV, h, ih]
    · simp [setKV, he, lookupKV, ih]

theorem lookupKV_append_singleton {κ α : Type _} [DecidableEq κ] (l : List (κ × α)) (k : κ)
    (v : α) (h : lookupKV l k = none) : lookupKV (l ++ [(k, v)]) k = some v := by
  induction l with
  | nil => simp [lookupKV]
  | cons kv rest ih =>
    obtain ⟨k0, v0⟩ := kv
    rw [lookupKV] at h
    by_cases he : k0 = k
    · rw [if_pos he] at h; exact absurd h (by simp)
    · rw [if_neg he] at h
      simpa [lookupKV, he] using ih h

theorem buildAttrDict_bounds (names : List String) (base : Nat) :
    ∀ q ∈ buildAttrDict names base, base ≤ q.2 ∧ q.2 - base < names.length := by
  induction names generalizing base with
  | nil => intro q hq; exact absurd hq (by simp [buildAttrDict])
  | cons a rest ih =>
    intro q hq
    rw [buildAttrDict] at hq
    cases hq with
    | head => simp
    | tail _ hmem =>
      have := ih (base + 1) q hmem
      constructor
      · omega
      · simp only [List.length_cons]; omega

theorem buildAttrDict_length (names : List String) (base : Nat) :
    (buildAttrDict names base).length = names.length := by
  induction names generalizing base with
  | nil => rfl
  | cons a rest ih => simp [buildAttrDict, ih]

/-! ### Type registry lemmas -/

theorem getTypeAttrDict_cached {V : Type} (env : Env) (st : DataStore V) (tn : String)
    (info : TypeInfo) (h : lookupKV st.type_attributes tn = some info) :
    _get_type_attribute_dict env st tn = (Except.ok info.attributes, st) := by
  rw [_get_type_attribute_dict, _get_type_info, h]

theorem getTypeAttrDict_ok {V : Type} (env : Env) (st st1 : DataStore V) (tn : String)
    (d : List (String × Nat))
    (h : _get_type_attribute_dict env st tn = (Except.ok d, st1)) :
    (∃ info : TypeInfo, lookupKV st1.type_attributes tn = some info ∧ info.attributes = d) ∧
      st1.elements = st.elements ∧ st1.entry_dict = st.entry_dict ∧ st1.heap = st.heap ∧
      st1.dynamically_add_type = st.dynamically_add_type := by
  rw [_get_type_attribute_dict, _get_type_info] at h
  cases hl : lookupKV st.type_attributes tn with
  | some info =>
    rw [hl] at h
    simp only [Prod.mk.injEq, Except.ok.injEq] at h
    obtain ⟨h1, h2⟩ := h
    subst h2
    exact ⟨⟨info, hl, h1⟩, rfl, rfl, rfl, rfl⟩
  | none =>
    rw [hl] at h
    by_cases hdy : st.dynamically_add_type
    · rw [if_neg (by simp [hdy])] at h
      simp only [Prod.mk.injEq, Except.ok.injEq] at h
      obtain ⟨h1, h2⟩ := h
      subst h2
      exact ⟨⟨⟨buildAttrDict (env.attributesOf tn) ATTR_BASE, []⟩,
        lookupKV_append_singleton _ _ _ hl, h1⟩, rfl, rfl, rfl, rfl⟩
    · rw [if_pos (by simp [hdy])] at h
      simp at h

theorem getTypeAttrDict_ok_bounds {V : Type} (env : Env) (st st1 : DataStore V) (tn : String)
    (d : List (String × Nat)) (hwf : RegWf st)
    (h : _get_type_attribute_dict env st tn = (Except.ok d, st1)) :
    ∀ q ∈ d, ATTR_BASE ≤ q.2 ∧ q.2 - ATTR_BASE < d.length := by
  rw [_get_type_attribute_dict, _get_type_info] at h
  cases hl : lookupKV st.type_attributes tn with
  | some info =>
    rw [hl] at h
    simp only [Prod.mk.injEq, Except.ok.injEq] at h
    obtain ⟨h1, -⟩ := h
    subst h1
    exact fun q hq => hwf (tn, info) (lookupKV_mem hl) q hq
  | none =>
    rw [hl] at h
    by_cases hdy : st.dynamically_add_type
    · rw [if_neg (by simp [hdy])] at h
      simp only [Prod.mk.injEq, Except.ok.injEq] at h
      obtain ⟨h1, -⟩ := h
      subst h1
      intro q hq
      have := buildAttrDict_bounds (env.attributesOf tn) ATTR_BASE q hq
      rw [buildAttrDict_length]
      exact this
    · rw [if_pos (by simp [hdy])] at h
      simp at h

theorem add_annotation_raw_ok {V : Type} (env : Env) (st st' : DataStore V) (tid r : Nat)
    (tn : String) (b e : Int)
    (h : add_annotation_raw env st tid tn b e = (Except.ok r, st')) :
    r = tid ∧ ∃ (d : List (String × Nat)) (st1 : DataStore V) (elems : List (String × List Nat)),
      _get_type_attribute_dict env st tn = (Except.ok d, st1) ∧
      st' = { st1 with
              heap := setKV st1.heap tid ⟨b, e, tid, tn, List.replicate d.length none⟩,
              elements := elems,
              entry_dict := st1.entry_dict ++ [tid] } := by
  rw [add_annotation_raw, _new_annotation, _num_attributes_for_type] at h
  cases hq : _get_type_attribute_dict env st tn with
  | mk res st1 =>
    rw [hq] at h
    cases res with
    | error err => simp at h
    | ok d =>
      simp only [Prod.mk.injEq, Except.ok.injEq] at h
      obtain ⟨h1, h2⟩ := h
      subst h1
      exact ⟨rfl, d, st1, _, rfl, h2.symm⟩

/-- C6: attribute round trip.  (a) Immediately after
`add_annotation_raw(type_name, b, e)` on a store with a well-formed
registry, `get_attribute(tid, attr)` returns `None` for every attribute
`attr` that the registry assigns to `type_name` — all slots start `None`
and none has been set.  (b) On any store, a successful
`set_attribute(tid, attr, v)` followed by `get_attribute(tid, attr)`
returns exactly `v`. -/
theorem c6_attribute_round_trip {V : Type} [DecidableEq V] (env : Env) :
    (∀ (st st' : DataStore V) (tid r i : Nat) (tn attr : String) (b e : Int) (info : TypeInfo),
      RegWf st →
      add_annotation_raw env st tid tn b e = (Except.ok r, st') →
      lookupKV st'.type_attributes tn = some info →
      lookupKV info.attributes attr = some i →
      (get_attribute env st' r attr).1 = Except.ok none) ∧
    (∀ (st st' : DataStore V) (tid : Nat) (attr : String) (v : V),
      set_attribute env st tid attr v = (Except.ok (), st') →
      (get_attribute env st' tid attr).1 = Except.ok (some v)) := by
  constructor
  · intro st st' tid r i tn attr b e info hwf hadd hinfo hattr
    obtain ⟨heqr, d, st1, elems, hd, heqst⟩ := add_annotation_raw_ok env st st' tid r tn b e hadd
    subst heqr
    subst heqst
    obtain ⟨⟨info0, hlook0, hd0⟩, -, -, -, -⟩ := getTypeAttrDict_ok env st st1 tn d hd
    have hinfo1 : lookupKV st1.type_attributes tn = some info := hinfo
    rw [hlook0] at hinfo1
    have hinfo2 : info0 = info := by injection hinfo1
    subst hinfo2
    subst hd0
    have hbounds := getTypeAttrDict_ok_bounds env st st1 tn info0.attributes hwf hd
      (attr, i) (lookupKV_mem hattr)
    have hmem2 : r ∈ st1.entry_dict ++ [r] := by simp
    have hself : lookupKV
        (setKV st1.heap r
          (⟨b, e, r, tn, List.replicate info0.attributes.length none⟩ : Entry V)) r =
        some ⟨b, e, r, tn, List.replicate info0.attributes.length none⟩ :=
      lookupKV_setKV_self _ _ _
    have hget : (List.replicate info0.attributes.length (none : Option V)).get?
        (i - ATTR_BASE) = some none := by
      rw [List.get?_eq_getElem?, List.getElem?_replicate, if_pos]
      omega
    simp only [get_attribute, hmem2, if_pos, hself,
      getTypeAttrDict_cached env _ tn info0 hinfo, hattr, hget]
    rw [if_neg (by omega : ¬ i < ATTR_BASE)]
  · intro st st' tid attr v h
    by_cases hmem : tid ∈ st.entry_dict
    · cases hheap : lookupKV st.heap tid with
      | none =>
        simp only [set_attribute, hmem, if_pos, hheap] at h
        simp at h
      | some entry =>
        cases hq : _get_type_attribute_dict env st entry.type_name with
        | mk res st1 =>
          cases res with
          | error err =>
            simp only [set_attribute, hmem, if_pos, hheap, hq] at h
            simp at h
          | ok d =>
            cases hattr : lookupKV d attr with
            | none =>
              simp only [set_attribute, hmem, if_pos, hheap, hq, hattr] at h
              simp at h
            | some i =>
              by_cases hlt : i < ATTR_BASE
              · simp only [set_attribute, hmem, if_pos, hheap, hq, hattr, hlt,
                  if_true, if_false] at h
                simp at h
              · by_cases hrange : i - ATTR_BASE < entry.attrs.length
                · simp only [set_attribute, hmem, if_pos, hheap, hq, hattr, hlt,
                    hrange, if_true, if_false, Prod.mk.injEq] at h
                  obtain ⟨-, heqst⟩ := h
                  obtain ⟨⟨info0, hlook0, hd0⟩, -, hed, -, -⟩ :=
                    getTypeAttrDict_ok env st st1 entry.type_name d hq
                  have hmem2 : tid ∈ st1.entry_dict := by rw [hed]; exact hmem
                  have hmem3 : tid ∈ st'.entry_dict := by rw [← heqst]; exact hmem2
                  have hheap3 : lookupKV st'.heap tid =
                      some { entry with attrs := entry.attrs.set (i - ATTR_BASE) (some v) } := by
                    rw [← heqst]; exact lookupKV_setKV_self _ _ _
                  have hta3 : st'.type_attributes = st1.type_attributes := by rw [← heqst]
                  have hcached : _get_type_attribute_dict env st' entry.type_name =
                      (Except.ok info0.attributes, st') :=
                    getTypeAttrDict_cached env st' entry.type_name info0 (by
                      rw [hta3]; exact hlook0)
                  have hget : ((entry.attrs.set (i - ATTR_BASE) (some v)).get?
                      (i - ATTR_BASE)) = some (some v) := by
                    rw [List.get?_eq_getElem?, List.getElem?_set_eq_of_lt _ hrange]
                  simp only [get_attribute, hmem3, if_pos, hheap3, hcached, hd0, hattr, hget]
                  rw [if_neg hlt]
                · simp only [set_attribute, hmem, if_pos, hheap, hq, hattr, hlt,
                    hrange, if_true, if_false] at h
                  simp at h
    · simp only [set_attribute, hmem, if_neg, if_false] at h
      simp at h

/-- Witness environment for the round-trip claim: every type is an
annotation type with the single attribute `attr1`. -/
def attrEnv : Env := ⟨fun _ => true, fun _ _ => true, fun _ => ["attr1"]⟩

/-- Witness store: one annotation of type `"T"` on span `(0, 5)`, tid 7. -/
def attrStore : DataStore Nat := (add_annotation_raw attrEnv (initStore Nat) 7 "T" 0 5).2

/-- Witness store after `set_attribute(7, "attr1", 42)`. -/
def attrStore2 : DataStore Nat := (set_attribute attrEnv attrStore 7 "attr1" 42).2

/-- Witness for C6: on the concrete one-record store, the never-set
attribute reads back `None`, and after `set_attribute(7, "attr1", 42)` it
reads back 42. -/
theorem c6_attribute_round_trip_witness :
    (get_attribute attrEnv attrStore 7 "attr1").1 = Except.ok none ∧
    (get_attribute attrEnv attrStore2 7 "attr1").1 = Except.ok (some 42) :=
  ⟨(c6_attribute_round_trip attrEnv).1 (initStore Nat) attrStore 7 7 4 "T" "attr1" 0 5
      ⟨[("attr1", 4)], []⟩ (fun p hp => absurd hp (List.not_mem_nil p))
      (by decide) (by decide) (by decide),
   (c6_attribute_round_trip attrEnv).2 attrStore attrStore2 7 "attr1" 42 (by decide)⟩

/-- C1: dual-index consistency is broken by a failing `delete_entry` call.
On `tieStore` (two same-key annotations, tids 100 then 50, a state produced
by two ordinary `add_annotation_raw` calls), `delete_entry(50)` raises
`RuntimeError`, and afterwards the record with tid 50 is still held in the
per-type container of its type while tid 50 is no longer in the identity
index — so the claimed invariant does not hold after every (also failing)
`delete_entry` call. -/
theorem c1_dual_index_broken_by_failing_delete :
    (delete_entry tieEnv tieStore 50).1 =
      Except.error (PyErr.runtimeError
        "When deleting entry, entry data is not found in the target list.") ∧
    50 ∉ (delete_entry tieEnv tieStore 50).2.entry_dict ∧
    50 ∈ (lookupKV (delete_entry tieEnv tieStore 50).2.elements "T").getD [] ∧
    derefD (delete_entry tieEnv tieStore 50).2.heap 50 =
      { begin := 0, end_ := 5, tid := 50, type_name := "T", attrs := [] } := by
  decide

/-- C2: mutation is not atomic.  On `tieStore`, `delete_entry(50)` raises
`RuntimeError`, yet the identity index of the resulting store differs from
the identity index before the call (tid 50 was popped first and is not
restored), while the per-type container is left untouched — partial
mutation leaks. -/
theorem c2_failing_delete_mutates_identity_index :
    (delete_entry tieEnv tieStore 50).1 =
      Except.error (PyErr.runtimeError
        "When deleting entry, entry data is not found in the target list.") ∧
    (delete_entry tieEnv tieStore 50).2.entry_dict ≠ tieStore.entry_dict ∧
    (delete_entry tieEnv tieStore 50).2.elements = tieStore.elements := by
  decide

/-- C5: `get_entry_index` does not scan through key ties.  On `tieStore`
the record with tid 50 is stored at container position 1 (position 0 holds
the same-key record with tid 100), yet `get_entry_index(50)` raises
`ValueError` instead of returning 1: after the key bisection it checks the
single leftmost slot of the tie block and gives up. -/
theorem c5_get_entry_index_misses_tie :
    50 ∈ tieStore.entry_dict ∧
    derefD tieStore.heap (((lookupKV tieStore.elements "T").getD []).getD 1 0) =
      { begin := 0, end_ := 5, tid := 50, type_name := "T", attrs := [] } ∧
    get_entry_index tieEnv tieStore 50 =
      Except.error (PyErr.valueError "Entry not found in entry list.") := by
  decide

/-- C7: the first `delete_entry` on a stored tid can fail.  On `tieStore`,
tid 50 is stored, yet `delete_entry(50)` raises `RuntimeError` (not
succeeding as claimed) and the length of the per-type container does not
decrease.  (The second call does fail with the `UnknownId` `KeyError`,
but only because the failing first call already popped the identity
index.) -/
theorem c7_first_delete_of_stored_tid_fails :
    50 ∈ tieStore.entry_dict ∧
    (delete_entry tieEnv tieStore 50).1 =
      Except.error (PyErr.runtimeError
        "When deleting entry, entry data is not found in the target list.") ∧
    ((lookupKV (delete_entry tieEnv tieStore 50).2.elements "T").getD []).length =
      ((lookupKV tieStore.elements "T").getD []).length := by
  decide

/-! ### Seeding of the k-way merge: success and failure characterization -/

theorem coSeed_ok_of_all_good {V : Type} (st : DataStore V) (names : List String)
    (h : ∀ tn ∈ names, ∃ l, lookupKV st.elements tn = some l ∧ l ≠ []) :
    ∃ fe, coSeed st names = Except.ok fe := by
  induction names with
  | nil => exact ⟨[], rfl⟩
  | cons tn rest ih =>
    obtain ⟨l, hl, hne⟩ := h tn (List.mem_cons_self tn rest)
    obtain ⟨t, ts, rfl⟩ := List.exists_cons_of_ne_nil hne
    obtain ⟨fe, hfe⟩ := ih (fun tn2 h2 => h tn2 (List.mem_cons_of_mem _ h2))
    exact ⟨derefD st.heap t :: fe, by simp [coSeed, hl, hfe]⟩

theorem coSeed_all_good_of_ok {V : Type} (st : DataStore V) (names : List String)
    (fe : List (Entry V)) (h : coSeed st names = Except.ok fe) :
    ∀ tn ∈ names, ∃ l, lookupKV st.elements tn = some l ∧ l ≠ [] := by
  induction names generalizing fe with
  | nil => intro tn htn; exact absurd htn (List.not_mem_nil tn)
  | cons tn0 rest ih =>
    intro tn htn
    rw [coSeed] at h
    cases hl : lookupKV st.elements tn0 with
    | none => rw [hl] at h; exact absurd h (by simp)
    | some l =>
      rw [hl] at h
      cases l with
      | nil => exact absurd h (by simp)
      | cons t ts =>
        cases htn with
        | head => exact ⟨t :: ts, hl, by simp⟩
        | tail _ hmem =>
          cases hrest : coSeed st rest with
          | error err => rw [hrest] at h; exact absurd h (by simp)
          | ok firsts => exact ih firsts hrest tn hmem

theorem coSeed_unknown {V : Type} (st : DataStore V) (names : List String)
    (hnoempty : ∀ tn ∈ names, lookupKV st.elements tn ≠ some ([] : List Nat))
    (hbad : ∃ tn ∈ names, lookupKV st.elements tn = none) :
    ∃ tn ∈ names, lookupKV st.elements tn = none ∧
      coSeed st names =
        Except.error (PyErr.valueError ("type name " ++ tn ++ " is not recognized")) := by
  induction names with
  | nil => obtain ⟨tn, htn, _⟩ := hbad; exact absurd htn (List.not_mem_nil tn)
  | cons tn0 rest ih =>
    cases hl : lookupKV st.elements tn0 with
    | none =>
      exact ⟨tn0, List.mem_cons_self tn0 rest, hl, by simp [coSeed, hl]⟩
    | some l =>
      have hne : l ≠ [] := by
        intro hnil
        exact hnoempty tn0 (List.mem_cons_self tn0 rest) (hnil ▸ hl)
      obtain ⟨t, ts, rfl⟩ := List.exists_cons_of_ne_nil hne
      have hbad2 : ∃ tn ∈ rest, lookupKV st.elements tn = none := by
        obtain ⟨tn, htn, hnone⟩ := hbad
        cases htn with
        | head => exact absurd hnone (by simp [hl])
        | tail _ hmem => exact ⟨tn, hmem, hnone⟩
      obtain ⟨tn, htn, hnone, hseed⟩ :=
        ih (fun tn2 h2 => hnoempty tn2 (List.mem_cons_of_mem _ h2)) hbad2
      exact ⟨tn, List.mem_cons_of_mem _ htn, hnone, by simp [coSeed, hl, hseed]⟩

theorem coSeed_empty {V : Type} (st : DataStore V) (names : List String)
    (hknown : ∀ tn ∈ names, lookupKV st.elements tn ≠ none)
    (hbad : ∃ tn ∈ names, lookupKV st.elements tn = some ([] : List Nat)) :
    ∃ tn ∈ names, lookupKV st.elements tn = some ([] : List Nat) ∧
      coSeed st names =
        Except.error (PyErr.valueError ("Entry list of type name " ++ tn ++ " is empty")) := by
  induction names with
  | nil => obtain ⟨tn, htn, _⟩ := hbad; exact absurd htn (List.not_mem_nil tn)
  | cons tn0 rest ih =>
    cases hl : lookupKV st.elements tn0 with
    | none => exact absurd hl (hknown tn0 (List.mem_cons_self tn0 rest))
    | some l =>
      cases l with
      | nil =>
        exact ⟨tn0, List.mem_cons_self tn0 rest, hl, by simp [coSeed, hl]⟩
      | cons t ts =>
        have hbad2 : ∃ tn ∈ rest, lookupKV st.elements tn = some ([] : List Nat) := by
          obtain ⟨tn, htn, hsome⟩ := hbad
          cases htn with
          | head => rw [hl] at hsome; exact absurd hsome (by simp)
          | tail _ hmem => exact ⟨tn, hmem, hsome⟩
        obtain ⟨tn, htn, hsome, hseed⟩ :=
          ih (fun tn2 h2 => hknown tn2 (List.mem_cons_of_mem _ h2)) hbad2
        exact ⟨tn, List.mem_cons_of_mem _ htn, hsome, by simp [coSeed, hl, hseed]⟩

/-- C8: failure modes of the k-way merge.  `co_iterator_annotation_like`
succeeds (yields a sequence) exactly when every named type has a non-empty
container; when some named type has no container (and no named container
is empty) it raises the unknown-type `ValueError`; when some named
container is empty (and every named type has a container) it raises the
empty-list `ValueError`; in every failure the result is an error, so no
record is yielded (the Python generator raises during seeding, before its
first yield).  When both failure kinds are present at once the scan of
`type_names` reports the first offending name, which is covered by the
success-iff part. -/
theorem c8_co_iterator_failure_modes {V : Type} (st : DataStore V) (names : List String) :
    ((∃ out, co_iterator_annotation_like st names = Except.ok out) ↔
      ∀ tn ∈ names, ∃ l, lookupKV st.elements tn = some l ∧ l ≠ []) ∧
    ((∀ tn ∈ names, lookupKV st.elements tn ≠ some ([] : List Nat)) →
      (∃ tn ∈ names, lookupKV st.elements tn = none) →
      ∃ tn ∈ names, lookupKV st.elements tn = none ∧
        co_iterator_annotation_like st names =
          Except.error (PyErr.valueError ("type name " ++ tn ++ " is not recognized"))) ∧
    ((∀ tn ∈ names, lookupKV st.elements tn ≠ none) →
      (∃ tn ∈ names, lookupKV st.elements tn = some ([] : List Nat)) →
      ∃ tn ∈ names, lookupKV st.elements tn = some ([] : List Nat) ∧
        co_iterator_annotation_like st names =
          Except.error (PyErr.valueError ("Entry list of type name " ++ tn ++ " is empty"))) := by
  refine ⟨⟨fun ⟨out, hout⟩ => ?_, fun hall => ?_⟩, fun h1 h2 => ?_, fun h1 h2 => ?_⟩
  · rw [co_iterator_annotation_like] at hout
    cases hseed : coSeed st names with
    | error err => rw [hseed] at hout; exact absurd hout (by simp)
    | ok fe => exact coSeed_all_good_of_ok st names fe hseed
  · obtain ⟨fe, hfe⟩ := coSeed_ok_of_all_good st names hall
    exact ⟨_, by rw [co_iterator_annotation_like, hfe]⟩
  · obtain ⟨tn, htn, hnone, hseed⟩ := coSeed_unknown st names h1 h2
    exact ⟨tn, htn, hnone, by rw [co_iterator_annotation_like, hseed]⟩
  · obtain ⟨tn, htn, hsome, hseed⟩ := coSeed_empty st names h1 h2
    exact ⟨tn, htn, hsome, by rw [co_iterator_annotation_like, hseed]⟩

/-- Witness for C8 at a concrete input: on `tieStore` (one container named
`"T"`), merging `["T", "U"]` hits the unknown-type failure for `"U"`. -/
theorem c8_co_iterator_failure_modes_witness :
    ∃ tn ∈ ["T", "U"], lookupKV tieStore.elements tn = none ∧
      co_iterator_annotation_like tieStore ["T", "U"] =
        Except.error (PyErr.valueError ("type name " ++ tn ++ " is not recognized")) :=
  (c8_co_iterator_failure_modes tieStore ["T", "U"]).2.1 (by decide) (by decide)

/-! ### Subtype-aware retrieval -/

theorem flatMap_lookup_filter {V : Type} (heap : List (Nat × Entry V)) (pred : String → Bool) :
    ∀ (el outer : List (String × List Nat)),
      (∀ k ∈ el.map Prod.fst, lookupKV outer k = lookupKV el k) →
      (el.map Prod.fst).Nodup →
      ((el.map Prod.fst).filter pred).flatMap
          (fun t => derefList heap ((lookupKV outer t).getD [])) =
        (el.filter (fun p => pred p.1)).flatMap (fun p => derefList heap p.2) := by
  intro el
  induction el with
  | nil => intro outer _ _; rfl
  | cons kv rest ih =>
    intro outer hagree hnd
    obtain ⟨k, v⟩ := kv
    have hk : lookupKV outer k = some v := by
      have := hagree k (by simp)
      rw [this, lookupKV, if_pos rfl]
    have hnd2 : (rest.map Prod.fst).Nodup := (List.nodup_cons.mp (by simpa using hnd)).2
    have hnotmem : k ∉ rest.map Prod.fst := (List.nodup_cons.mp (by simpa using hnd)).1
    have hagree2 : ∀ k2 ∈ rest.map Prod.fst, lookupKV outer k2 = lookupKV rest k2 := by
      intro k2 hk2
      have hne : k ≠ k2 := fun he => hnotmem (he ▸ hk2)
      have := hagree k2 (by simp [hk2])
      rw [this, lookupKV, if_neg hne]
    have ihr := ih outer hagree2 hnd2
    by_cases hp : pred k = true
    · simp [List.filter_cons, hp, hk, ihr]
    · simp [List.filter_cons, hp, ihr]

/-- C9: `get`.  With `include_sub_type=False` the single container named
`type_name` is yielded in stored order, and an unknown type name raises
the `KeyError` (`UnknownType`).  With `include_sub_type=True` the records
of every currently-registered type name classified as a (per the external
`issubclass` capability, which is reflexive) subtype of `type_name` are
yielded, container by container in registration order and within each
container in stored order; the assoc-list hypothesis says the registered
type names are distinct, which holds for every store the operations build
(`__elements` is a dict). -/
theorem c9_get_plain_and_subtype {V : Type} (env : Env) (st : DataStore V)
    (type_name : String) (hnd : (st.elements.map Prod.fst).Nodup) :
    (∀ l, lookupKV st.elements type_name = some l →
      get env st type_name false = Except.ok (derefList st.heap l)) ∧
    (lookupKV st.elements type_name = none →
      get env st type_name false =
        Except.error (PyErr.keyError ("type " ++ type_name ++ " does not exist"))) ∧
    get env st type_name true =
      Except.ok ((st.elements.filter (fun p => env.isSubclass p.1 type_name)).flatMap
        (fun p => derefList st.heap p.2)) := by
  refine ⟨fun l hl => ?_, fun hnone => ?_, ?_⟩
  · rw [get]; simp [hl]
  · rw [get]; simp [hnone]
  · rw [get, if_pos (by trivial)]
    exact congrArg Except.ok (flatMap_lookup_filter st.heap
      (fun t => env.isSubclass t type_name) st.elements st.elements (fun _ _ => rfl) hnd)

/-- Witness for C9 at a concrete input: on `tieStore` (single container
`"T"` holding handles `[100, 50]`, every type a subclass of every type),
both retrieval modes yield the two records in stored order. -/
theorem c9_get_plain_and_subtype_witness :
    get tieEnv tieStore "T" false = Except.ok (derefList tieStore.heap [100, 50]) ∧
    get tieEnv tieStore "T" true =
      Except.ok ((tieStore.elements.filter (fun p => tieEnv.isSubclass p.1 "T")).flatMap
        (fun p => derefList tieStore.heap p.2)) :=
  ⟨(c9_get_plain_and_subtype tieEnv tieStore "T" (by decide)).1 [100, 50] (by decide),
   (c9_get_plain_and_subtype tieEnv tieStore "T" (by decide)).2.2⟩

/-! ### More association list lemmas -/

theorem lookupKV_eq_none_iff {κ α : Type _} [DecidableEq κ] (l : List (κ × α)) (k : κ) :
    lookupKV l k = none ↔ k ∉ l.map Prod.fst := by
  induction l with
  | nil => simp [lookupKV]
  | cons kv rest ih =>
    obtain ⟨k0, v0⟩ := kv
    by_cases he : k0 = k
    · subst he; simp [lookupKV]
    · simp only [lookupKV, if_neg he, List.map_cons, List.mem_cons, ih]
      constructor
      · intro hn hor
        rcases hor with h | h
        · exact he h.symm
        · exact hn h
      · intro hn
        exact fun h => hn (Or.inr h)

theorem setKV_map_fst {κ α : Type _} [DecidableEq κ] (l : List (κ × α)) (k : κ) (v v0 : α)
    (h : lookupKV l k = some v0) : (setKV l k v).map Prod.fst = l.map Prod.fst := by
  induction l with
  | nil => exact absurd h (by simp [lookupKV])
  | cons kv rest ih =>
    obtain ⟨k0, v1⟩ := kv
    rw [lookupKV] at h
    by_cases he : k0 = k
    · subst he; simp [setKV]
    · rw [if_neg he] at h
      simp [setKV, he, ih h]

theorem removeKV_sublist {κ α : Type _} [DecidableEq κ] (l : List (κ × α)) (k : κ) :
    (removeKV l k).Sublist l := by
  induction l with
  | nil => exact List.Sublist.refl []
  | cons kv rest ih =>
    obtain ⟨k0, v0⟩ := kv
    rw [removeKV]
    by_cases he : k0 = k
    · rw [if_pos he]; exact List.sublist_cons_self _ _
    · rw [if_neg he]; exact ih.cons₂ _

theorem lookupKV_removeKV_ne {κ α : Type _} [DecidableEq κ] (l : List (κ × α)) (k k2 : κ)
    (h : k ≠ k2) : lookupKV (removeKV l k) k2 = lookupKV l k2 := by
  induction l with
  | nil => rfl
  | cons kv rest ih =>
    obtain ⟨k0, v0⟩ := kv
    rw [removeKV]
    by_cases he : k0 = k
    · rw [if_pos he, lookupKV, if_neg (he ▸ h : k0 ≠ k2)]
    · rw [if_neg he, lookupKV, lookupKV]
      by_cases he2 : k0 = k2
      · rw [if_pos he2, if_pos he2]
      · rw [if_neg he2, if_neg he2, ih]

theorem lookupKV_removeKV_self {κ α : Type _} [DecidableEq κ] (l : List (κ × α)) (k : κ)
    (hnd : (l.map Prod.fst).Nodup) : lookupKV (removeKV l k) k = none := by
  induction l with
  | nil => rfl
  | cons kv rest ih =>
    obtain ⟨k0, v0⟩ := kv
    rw [List.map_cons] at hnd
    obtain ⟨hnotmem, hnd2⟩ := List.nodup_cons.mp hnd
    rw [removeKV]
    by_cases he : k0 = k
    · rw [if_pos he]
      rw [lookupKV_eq_none_iff]
      exact he ▸ hnotmem
    · rw [if_neg he, lookupKV, if_neg he, ih hnd2]

theorem lookupKV_append_singleton_ne {κ α : Type _} [DecidableEq κ] (l : List (κ × α))
    (k k2 : κ) (v : α) (h : k ≠ k2) : lookupKV (l ++ [(k, v)]) k2 = lookupKV l k2 := by
  induction l with
  | nil => simp [lookupKV, h]
  | cons kv rest ih =>
    obtain ⟨k0, v0⟩ := kv
    rw [List.cons_append, lookupKV, lookupKV]
    by_cases he : k0 = k2
    · rw [if_pos he, if_pos he]
    · rw [if_neg he, if_neg he, ih]

/-! ### Key order and sorted insertion -/

theorem keyLe_total (a b : Int × Int) : keyLe a b = true ∨ keyLe b a = true := by
  simp only [keyLe, Bool.or_eq_true, Bool.and_eq_true, decide_eq_true_eq]
  omega

theorem keyLe_trans {a b c : Int × Int} (h1 : keyLe a b = true) (h2 : keyLe b c = true) :
    keyLe a c = true := by
  simp only [keyLe, Bool.or_eq_true, Bool.and_eq_true, decide_eq_true_eq] at h1 h2 ⊢
  omega

theorem insertByKey_perm (f : Nat → Int × Int) (k : Int × Int) (tid : Nat) (l : List Nat) :
    List.Perm (insertByKey f k tid l) (tid :: l) := by
  induction l with
  | nil => exact List.Perm.refl _
  | cons t ts ih =>
    rw [insertByKey]
    by_cases hle : keyLe (f t) k = true
    · rw [if_pos hle]
      exact (ih.cons t).trans (List.Perm.swap tid t ts)
    · rw [if_neg hle]

theorem insertByKey_sorted (f : Nat → Int × Int) (k : Int × Int) (tid : Nat) (l : List Nat)
    (hf : f tid = k)
    (hs : List.Pairwise (fun a b => keyLe (f a) (f b) = true) l) :
    List.Pairwise (fun a b => keyLe (f a) (f b) = true) (insertByKey f k tid l) := by
  induction l with
  | nil => exact List.pairwise_singleton _ _
  | cons t ts ih =>
    obtain ⟨ht, hts⟩ := List.pairwise_cons.mp hs
    rw [insertByKey]
    by_cases hle : keyLe (f t) k = true
    · rw [if_pos hle]
      refine List.pairwise_cons.mpr ⟨?_, ih hts⟩
      intro x hx
      rcases List.mem_cons.mp ((insertByKey_perm f k tid ts).mem_iff.mp hx) with h | h
      · subst h; rw [hf]; exact hle
      · exact ht x h
    · rw [if_neg hle]
      have hk : keyLe k (f t) = true := (keyLe_total (f t) k).resolve_left hle
      refine List.pairwise_cons.mpr ⟨?_, hs⟩
      intro x hx
      rcases List.mem_cons.mp hx with h | h
      · subst h; rw [hf]; exact hk
      · rw [hf]; exact keyLe_trans hk (ht x h)

/-! ### Preservation of the store invariant -/

theorem getTypeInfo_snd_fields {V : Type} (env : Env) (st : DataStore V) (tn : String) :
    (_get_type_info env st tn).2.elements = st.elements ∧
    (_get_type_info env st tn).2.entry_dict = st.entry_dict ∧
    (_get_type_info env st tn).2.heap = st.heap := by
  rw [_get_type_info]
  cases lookupKV st.type_attributes tn with
  | some info => exact ⟨rfl, rfl, rfl⟩
  | none =>
    by_cases hdy : st.dynamically_add_type
    · rw [if_neg (by simp [hdy])]; exact ⟨rfl, rfl, rfl⟩
    · rw [if_pos (by simp [hdy])]; exact ⟨rfl, rfl, rfl⟩

theorem getTypeAttrDict_snd {V : Type} (env : Env) (st : DataStore V) (tn : String) :
    (_get_type_attribute_dict env st tn).2 = (_get_type_info env st tn).2 := by
  rw [_get_type_attribute_dict]
  cases h : _get_type_info env st tn with
  | mk r s => cases r <;> rfl

theorem getTypeAttrDict_snd_fields {V : Type} (env : Env) (st : DataStore V) (tn : String) :
    (_get_type_attribute_dict env st tn).2.elements = st.elements ∧
    (_get_type_attribute_dict env st tn).2.entry_dict = st.entry_dict ∧
    (_get_type_attribute_dict env st tn).2.heap = st.heap := by
  rw [getTypeAttrDict_snd]
  exact getTypeInfo_snd_fields env st tn

theorem regWf_getTypeInfo {V : Type} (env : Env) (st : DataStore V) (tn : String)
    (h : RegWf st) : RegWf (_get_type_info env st tn).2 := by
  rw [_get_type_info]
  cases hl : lookupKV st.type_attributes tn with
  | some info => exact h
  | none =>
    by_cases hdy : st.dynamically_add_type
    · rw [if_neg (by simp [hdy])]
      intro p hp q hq
      rcases List.mem_append.mp hp with hmem | hmem
      · exact h p hmem q hq
      · rw [List.mem_singleton.mp hmem] at hq ⊢
        have := buildAttrDict_bounds (env.attributesOf tn) ATTR_BASE q hq
        simpa [buildAttrDict_length] using this
    · rw [if_pos (by simp [hdy])]; exact h

theorem regWf_getTypeAttrDict {V : Type} (env : Env) (st : DataStore V) (tn : String)
    (h : RegWf st) : RegWf (_get_type_attribute_dict env st tn).2 := by
  rw [getTypeAttrDict_snd]
  exact regWf_getTypeInfo env st tn h

theorem inv3_of_fields {V : Type} {st st2 : DataStore V}
    (hel : st2.elements = st.elements) (hh : st2.heap = st.heap)
    (h1 : storeSorted st) (h2 : containersAllocated st) (h3 : elemsNodup st) :
    storeSorted st2 ∧ containersAllocated st2 ∧ elemsNodup st2 := by
  refine ⟨fun tn => ?_, fun tn t ht => ?_, ?_⟩
  · have := h1 tn
    unfold containerSorted containerOf at this ⊢
    simp only [hel, hh]
    exact this
  · unfold containerOf at ht
    rw [hel] at ht
    rw [hh]
    exact h2 tn t ht
  · unfold elemsNodup
    rw [hel]
    exact h3

theorem storeInv_init (V : Type) : StoreInv (initStore V) := by
  refine ⟨fun p hp => absurd hp (List.not_mem_nil p), fun tn => ?_, fun tn t ht => ?_, ?_⟩
  · exact List.Pairwise.nil
  · exact absurd ht (List.not_mem_nil t)
  · exact List.nodup_nil

theorem storeInv_add {V : Type} [DecidableEq V] (env : Env) (st : DataStore V)
    (tid : Nat) (tn : String) (b e : Int)
    (hfresh : lookupKV st.heap tid = none) (h : StoreInv st) :
    StoreInv (add_annotation_raw env st tid tn b e).2 := by
  obtain ⟨hreg, hsort, halloc, hnd⟩ := h
  rw [add_annotation_raw, _new_annotation, _num_attributes_for_type]
  cases hq : _get_type_attribute_dict env st tn with
  | mk res st1 =>
    have hf := getTypeAttrDict_snd_fields env st tn
    rw [hq] at hf
    obtain ⟨hel, hed, hh⟩ := hf
    have hreg1 : RegWf st1 := by
      have := regWf_getTypeAttrDict env st tn hreg
      rwa [hq] at this
    cases res with
    | error err =>
      exact ⟨hreg1, inv3_of_fields hel hh hsort halloc hnd⟩
    | ok d =>
      simp only []
      set entry : Entry V := ⟨b, e, tid, tn, List.replicate d.length none⟩ with hentry
      have hkey_ne : ∀ t, t ≠ tid →
          keyOf (setKV st1.heap tid entry) t = keyOf st1.heap t := by
        intro t htne
        unfold keyOf derefD
        rw [lookupKV_setKV_ne _ _ _ _ (fun h2 => htne h2.symm)]
      have hkey_tid : keyOf (setKV st1.heap tid entry) tid = (b, e) := by
        unfold keyOf derefD
        rw [lookupKV_setKV_self]
        rfl
      have hmem_ne : ∀ tn2, ∀ t ∈ containerOf st tn2, t ≠ tid := by
        intro tn2 t ht heq
        subst heq
        have := halloc tn2 t ht
        rw [hfresh] at this
        exact absurd this (by simp)
      have hsort1 : ∀ tn2, List.Pairwise
          (fun a b2 => keyLe (keyOf (setKV st1.heap tid entry) a)
            (keyOf (setKV st1.heap tid entry) b2) = true) (containerOf st tn2) := by
        intro tn2
        refine List.Pairwise.imp_of_mem ?_ (hsort tn2)
        intro a b2 ha hb hab
        rw [hkey_ne a (hmem_ne tn2 a ha), hkey_ne b2 (hmem_ne tn2 b2 hb), hh]
        exact hab
      have halloc1 : ∀ t, (lookupKV st.heap t).isSome = true →
          (lookupKV (setKV st1.heap tid entry) t).isSome = true := by
        intro t ht
        by_cases heq : t = tid
        · subst heq; rw [lookupKV_setKV_self]; rfl
        · rw [lookupKV_setKV_ne _ _ _ _ (fun h2 => heq h2.symm), hh]; exact ht
      refine ⟨hreg1, fun tn2 => ?_, fun tn2 t ht => ?_, ?_⟩
      · -- sortedness of every container of the new store
        unfold containerSorted containerOf
        simp only []
        cases hlook : lookupKV st1.elements tn with
        | some lst =>
          by_cases htn : tn = tn2
          · subst htn
            rw [lookupKV_setKV_self]
            simp only [Option.getD_some]
            refine insertByKey_sorted _ _ _ _ hkey_tid ?_
            have : containerOf st tn = lst := by
              unfold containerOf; rw [← hel, hlook]; rfl
            rw [← this]
            exact hsort1 tn
          · rw [lookupKV_setKV_ne _ _ _ _ htn]
            have : containerOf st tn2 = (lookupKV st1.elements tn2).getD [] := by
              unfold containerOf; rw [hel]
            rw [← this]
            exact hsort1 tn2
        | none =>
          by_cases htn : tn = tn2
          · subst htn
            rw [lookupKV_append_singleton _ _ _ hlook]
            simp only [Option.getD_some]
            exact List.pairwise_singleton _ _
          · rw [lookupKV_append_singleton_ne _ _ _ _ htn]
            have : containerOf st tn2 = (lookupKV st1.elements tn2).getD [] := by
              unfold containerOf; rw [hel]
            rw [← this]
            exact hsort1 tn2
      · -- every handle of every container is allocated
        unfold containerOf at ht
        simp only [] at ht
        cases hlook : lookupKV st1.elements tn with
        | some lst =>
          rw [hlook] at ht
          by_cases htn : tn = tn2
          · subst htn
            rw [lookupKV_setKV_self] at ht
            simp only [Option.getD_some] at ht
            rcases List.mem_cons.mp
                ((insertByKey_perm _ _ tid lst).mem_iff.mp ht) with hcase | hcase
            · subst hcase; rw [lookupKV_setKV_self]; rfl
            · refine halloc1 t (halloc tn t ?_)
              unfold containerOf; rw [← hel, hlook]; exact hcase
          · rw [lookupKV_setKV_ne _ _ _ _ htn] at ht
            refine halloc1 t (halloc tn2 t ?_)
            unfold containerOf; rw [← hel]; exact ht
        | none =>
          rw [hlook] at ht
          by_cases htn : tn = tn2
          · subst htn
            rw [lookupKV_append_singleton _ _ _ hlook] at ht
            simp only [Option.getD_some] at ht
            rcases List.mem_singleton.mp ht with rfl
            rw [lookupKV_setKV_self]; rfl
          · rw [lookupKV_append_singleton_ne _ _ _ _ htn] at ht
            refine halloc1 t (halloc tn2 t ?_)
            unfold containerOf; rw [← hel]; exact ht
      · -- distinct registered type names
        unfold elemsNodup
        simp only []
        cases hlook : lookupKV st1.elements tn with
        | some lst =>
          rw [setKV_map_fst _ _ _ _ hlook, hel]
          exact hnd
        | none =>
          rw [List.map_append, hel]
          have hnotmem : tn ∉ st.elements.map Prod.fst := by
            rw [← lookupKV_eq_none_iff, ← hel]
            exact hlook
          simp only [List.map_cons, List.map_nil]
          rw [List.nodup_append]
          exact ⟨hnd, List.nodup_singleton tn,
            fun a ha hb => hnotmem (by rwa [List.mem_singleton.mp hb] at ha)⟩

theorem storeInv_delete_by_loc {V : Type} (st : DataStore V) (tn : String) (idx : Nat)
    (h : StoreInv st) : StoreInv (_delete_entry_by_loc st tn idx).2 := by
  obtain ⟨hreg, hsort, halloc, hnd⟩ := h
  rw [_delete_entry_by_loc]
  split
  · exact ⟨hreg, hsort, halloc, hnd⟩
  · rename_i target_list hl
    split
    · exact ⟨hreg, hsort, halloc, hnd⟩
    · rename_i hge
      simp only []
      split
      · refine ⟨hreg, fun tn2 => ?_, fun tn2 t ht => ?_, ?_⟩
        · unfold containerSorted containerOf
          simp only []
          by_cases htn : tn = tn2
          · subst htn
            rw [lookupKV_removeKV_self _ _ hnd]
            exact List.Pairwise.nil
          · rw [lookupKV_removeKV_ne _ _ _ htn]
            exact hsort tn2
        · unfold containerOf at ht
          simp only [] at ht
          by_cases htn : tn = tn2
          · subst htn
            rw [lookupKV_removeKV_self _ _ hnd] at ht
            exact absurd ht (List.not_mem_nil t)
          · rw [lookupKV_removeKV_ne _ _ _ htn] at ht
            exact halloc tn2 t ht
        · unfold elemsNodup
          simp only []
          exact hnd.sublist ((removeKV_sublist st.elements tn).map Prod.fst)
      · refine ⟨hreg, fun tn2 => ?_, fun tn2 t ht => ?_, ?_⟩
        · unfold containerSorted containerOf
          simp only []
          by_cases htn : tn = tn2
          · subst htn
            rw [lookupKV_setKV_self]
            refine List.Pairwise.sublist (List.eraseIdx_sublist target_list idx) ?_
            have : containerOf st tn = target_list := by
              unfold containerOf; rw [hl]; rfl
            have h2 := hsort tn
            unfold containerSorted at h2
            rw [this] at h2
            exact h2
          · rw [lookupKV_setKV_ne _ _ _ _ htn]
            exact hsort tn2
        · unfold containerOf at ht
          simp only [] at ht
          by_cases htn : tn = tn2
          · subst htn
            rw [lookupKV_setKV_self] at ht
            simp only [Option.getD_some] at ht
            refine halloc tn t ?_
            unfold containerOf
            rw [hl]
            exact (List.eraseIdx_sublist target_list idx).subset ht
          · rw [lookupKV_setKV_ne _ _ _ _ htn] at ht
            exact halloc tn2 t ht
        · unfold elemsNodup
          simp only []
          rw [setKV_map_fst _ _ _ _ hl]
          exact hnd

theorem storeInv_deleteLocate {V : Type} [DecidableEq V] (env : Env) (st1 : DataStore V)
    (entry_data : Entry V) (h : StoreInv st1) :
    StoreInv (deleteLocate env st1 entry_data).2 := by
  rw [deleteLocate]
  split
  · exact h
  · rename_i target_list hl
    split
    · split
      · exact h
      · split
        · exact h
        · exact storeInv_delete_by_loc _ _ _ h
    · exact h

theorem storeInv_delete {V : Type} [DecidableEq V] (env : Env) (st : DataStore V)
    (tid : Nat) (h : StoreInv st) : StoreInv (delete_entry env st tid).2 := by
  rw [delete_entry]
  split
  · split
    · exact h
    · rename_i entry_data hheap
      exact storeInv_deleteLocate env _ entry_data ⟨h.1, h.2.1, h.2.2.1, h.2.2.2⟩
  · exact h

theorem storeInv_set {V : Type} [DecidableEq V] (env : Env) (st : DataStore V)
    (tid : Nat) (attr : String) (v : V) (h : StoreInv st) :
    StoreInv (set_attribute env st tid attr v).2 := by
  obtain ⟨hreg, hsort, halloc, hnd⟩ := h
  rw [set_attribute]
  split
  · split
    · exact ⟨hreg, hsort, halloc, hnd⟩
    · rename_i entry hheap
      simp only []
      split
      · rename_i err st1 hq
        have hf := getTypeAttrDict_snd_fields env st entry.type_name
        rw [hq] at hf
        have hel : st1.elements = st.elements := hf.1
        have hh : st1.heap = st.heap := hf.2.2
        have hreg1 : RegWf st1 := by
          have := regWf_getTypeAttrDict env st entry.type_name hreg
          rwa [hq] at this
        exact ⟨hreg1, inv3_of_fields hel hh hsort halloc hnd⟩
      · rename_i d st1 hq
        have hf := getTypeAttrDict_snd_fields env st entry.type_name
        rw [hq] at hf
        have hel : st1.elements = st.elements := hf.1
        have hed : st1.entry_dict = st.entry_dict := hf.2.1
        have hh : st1.heap = st.heap := hf.2.2
        have hreg1 : RegWf st1 := by
          have := regWf_getTypeAttrDict env st entry.type_name hreg
          rwa [hq] at this
        have hinv1 : storeSorted st1 ∧ containersAllocated st1 ∧ elemsNodup st1 :=
          inv3_of_fields hel hh hsort halloc hnd
        split
        · exact ⟨hreg1, hinv1⟩
        · rename_i i hattr
          split
          · exact ⟨hreg1, hinv1⟩
          · rename_i hlt
            split
            · rename_i hrange
              simp only []
              set entry1 : Entry V :=
                { entry with attrs := entry.attrs.set (i - ATTR_BASE) (some v) } with hent
              have hkey : ∀ t, keyOf (setKV st1.heap tid entry1) t = keyOf st.heap t := by
                intro t
                by_cases heq : t = tid
                · subst heq
                  unfold keyOf derefD
                  rw [lookupKV_setKV_self, hheap]
                  rfl
                · unfold keyOf derefD
                  rw [lookupKV_setKV_ne _ _ _ _ (fun h2 => heq h2.symm), hh]
              have hall : ∀ t, (lookupKV st.heap t).isSome = true →
                  (lookupKV (setKV st1.heap tid entry1) t).isSome = true := by
                intro t ht
                by_cases heq : t = tid
                · subst heq; rw [lookupKV_setKV_self]; rfl
                · rw [lookupKV_setKV_ne _ _ _ _ (fun h2 => heq h2.symm), hh]; exact ht
              refine ⟨hreg1, fun tn2 => ?_, fun tn2 t ht => ?_, ?_⟩
              · unfold containerSorted containerOf
                simp only [hkey, hel]
                exact hsort tn2
              · unfold containerOf at ht
                simp only [hel] at ht
                exact hall t (halloc tn2 t ht)
              · unfold elemsNodup
                simp only [hel]
                exact hnd
            · exact ⟨hreg1, hinv1⟩
  · exact ⟨hreg, hsort, halloc, hnd⟩

theorem reachable_storeInv {V : Type} [DecidableEq V] (env : Env) (st : DataStore V)
    (h : Reachable env st) : StoreInv st := by
  induction h with
  | init => exact storeInv_init V
  | add _ hfresh ih => exact storeInv_add _ _ _ _ _ _ hfresh ih
  | del _ ih => exact storeInv_delete _ _ _ ih
  | set _ ih => exact storeInv_set _ _ _ _ _ ih

/-- C3: sorted invariant.  Every store reachable by a sequence of
`add_annotation_raw`, `delete_entry` and `set_attribute` calls (successful
or failing) from a fresh `DataStore` keeps every per-type container —
those of annotation type names in particular — sorted by the `(begin,
end)` keys of its records: insertion goes through the sorted-container
`add`, and deletion removes one slot of a sorted container. -/
theorem c3_sorted_invariant {V : Type} [DecidableEq V] (env : Env) (st : DataStore V)
    (h : Reachable env st) : ∀ type_name, containerSorted st type_name :=
  (reachable_storeInv env st h).2.1

/-- Witness for C3: the concrete two-record tie store is reachable and its
`"T"` container is sorted by `(begin, end)`. -/
theorem c3_sorted_invariant_witness : containerSorted tieStore "T" :=
  c3_sorted_invariant tieEnv tieStore
    (Reachable.add (Reachable.add Reachable.init (by decide)) (by decide)) "T"

theorem set_attribute_ok_frame {V : Type} [DecidableEq V] (env : Env)
    (st st' : DataStore V) (tid : Nat) (attr : String) (v : V)
    (h : set_attribute env st tid attr v = (Except.ok (), st')) :
    st'.elements = st.elements ∧ st'.entry_dict = st.entry_dict ∧
    (∀ t, t ≠ tid → lookupKV st'.heap t = lookupKV st.heap t) ∧
    (∀ t, keyOf st'.heap t = keyOf st.heap t) ∧
    ∃ (entry entry1 : Entry V) (i : Nat),
      lookupKV st.heap tid = some entry ∧ lookupKV st'.heap tid = some entry1 ∧
      ATTR_BASE ≤ i ∧ entry1.begin = entry.begin ∧ entry1.end_ = entry.end_ ∧
      entry1.tid = entry.tid ∧ entry1.type_name = entry.type_name ∧
      entry1.attrs = entry.attrs.set (i - ATTR_BASE) (some v) := by
  rw [set_attribute] at h
  split at h
  · split at h
    · simp at h
    · rename_i entry hheap
      split at h
      · simp at h
      · rename_i d st1 hq
        split at h
        · simp at h
        · rename_i i hattr
          split at h
          · simp at h
          · rename_i hlt
            split at h
            · rename_i hrange
              simp only [Prod.mk.injEq] at h
              obtain ⟨-, heqst⟩ := h
              have hf := getTypeAttrDict_snd_fields env st entry.type_name
              rw [hq] at hf
              have hel : st1.elements = st.elements := hf.1
              have hed : st1.entry_dict = st.entry_dict := hf.2.1
              have hh : st1.heap = st.heap := hf.2.2
              subst heqst
              refine ⟨hel, hed, fun t htne => ?_, fun t => ?_,
                entry, _, i, hheap, lookupKV_setKV_self _ _ _, by omega,
                rfl, rfl, rfl, rfl, rfl⟩
              · show lookupKV (setKV st1.heap tid _) t = _
                rw [lookupKV_setKV_ne _ _ _ _ (fun h2 => htne h2.symm), hh]
              · by_cases heq : t = tid
                · subst heq
                  unfold keyOf derefD
                  rw [lookupKV_setKV_self, hheap]
                  rfl
                · unfold keyOf derefD
                  rw [lookupKV_setKV_ne _ _ _ _ (fun h2 => heq h2.symm), hh]
            · simp at h
  · simp at h

/-- C10: frame property of attribute writes.  (a) In every reachable
store, every attribute slot offset the registry has assigned is at least
`ATTR_BASE = 4`, the first index after the fixed `[begin, end, tid,
type_name]` prefix (`_get_type_info` numbers slots from
`ENTRY_TYPE_INDEX + 1`).  (b) Hence a successful `set_attribute(tid,
attr, v)` changes only the attribute slot block of the record with that
tid: the record keeps its `begin`, `end`, `tid` and `type_name` prefix and
only its slot `attr_id - 4` is rewritten; every other arena record, both
index structures (`__elements` and `__entry_dict`), and the `(begin,
end)` key of every stored handle — hence every position and the sort
order of every per-type container — are unchanged. -/
theorem c10_set_attribute_frame {V : Type} [DecidableEq V] (env : Env) :
    (∀ st : DataStore V, Reachable env st →
      ∀ p ∈ st.type_attributes, ∀ q ∈ p.2.attributes, ATTR_BASE ≤ q.2) ∧
    (∀ (st st' : DataStore V) (tid : Nat) (attr : String) (v : V),
      set_attribute env st tid attr v = (Except.ok (), st') →
      st'.elements = st.elements ∧ st'.entry_dict = st.entry_dict ∧
      (∀ t, t ≠ tid → lookupKV st'.heap t = lookupKV st.heap t) ∧
      (∀ t, keyOf st'.heap t = keyOf st.heap t) ∧
      ∃ (entry entry1 : Entry V) (i : Nat),
        lookupKV st.heap tid = some entry ∧ lookupKV st'.heap tid = some entry1 ∧
        ATTR_BASE ≤ i ∧ entry1.begin = entry.begin ∧ entry1.end_ = entry.end_ ∧
        entry1.tid = entry.tid ∧ entry1.type_name = entry.type_name ∧
        entry1.attrs = entry.attrs.set (i - ATTR_BASE) (some v)) :=
  ⟨fun st hre p hp q hq => ((reachable_storeInv env st hre).1 p hp q hq).1,
   fun st st' tid attr v h => set_attribute_ok_frame env st st' tid attr v h⟩

/-- Witness for C10 at concrete inputs: the registry of the reachable
two-record tie store assigns no offset below 4, and the concrete
`set_attribute(7, "attr1", 42)` call leaves the per-type index untouched. -/
theorem c10_set_attribute_frame_witness :
    (∀ p ∈ tieStore.type_attributes, ∀ q ∈ p.2.attributes, ATTR_BASE ≤ q.2) ∧
    attrStore2.elements = attrStore.elements :=
  ⟨(c10_set_attribute_frame tieEnv).1 tieStore
      (Reachable.add (Reachable.add Reachable.init (by decide)) (by decide)),
   ((c10_set_attribute_frame attrEnv).2 attrStore attrStore2 7 "attr1" 42 (by decide)).1⟩

/-! ### k-way merge: order, heap and bookkeeping lemmas -/

theorem tripleLe_refl (a : Int × Int × Nat) : tripleLe a a = true := by
  simp [tripleLe]

theorem tripleLe_trans {a b c : Int × Int × Nat} (h1 : tripleLe a b = true)
    (h2 : tripleLe b c = true) : tripleLe a c = true := by
  simp only [tripleLe, Bool.or_eq_true, Bool.and_eq_true, decide_eq_true_eq] at h1 h2 ⊢
  omega

theorem tripleLe_total (a b : Int × Int × Nat) :
    tripleLe a b = true ∨ tripleLe b a = true := by
  simp only [tripleLe, Bool.or_eq_true, Bool.and_eq_true, decide_eq_true_eq]
  omega

theorem keyLe_tripleLe {k1 k2 : Int × Int} (p : Nat) (h : keyLe k1 k2 = true) :
    tripleLe (k1.1, k1.2, p) (k2.1, k2.2, p) = true := by
  simp only [keyLe, Bool.or_eq_true, Bool.and_eq_true, decide_eq_true_eq] at h
  simp only [tripleLe, Bool.or_eq_true, Bool.and_eq_true, decide_eq_true_eq]
  omega

theorem heapPopMin_cons_isSome (x : HeapItem) (xs : List HeapItem) :
    (heapPopMin (x :: xs)).isSome = true := by
  rw [heapPopMin]
  cases heapPopMin xs with
  | none => rfl
  | some pr =>
    obtain ⟨m, rest⟩ := pr
    by_cases hc : tripleLe x.1 m.1 = true <;> simp [hc]

theorem heapPopMin_none_iff (h : List HeapItem) : heapPopMin h = none ↔ h = [] := by
  constructor
  · intro hn
    cases h with
    | nil => rfl
    | cons x xs =>
      have := heapPopMin_cons_isSome x xs
      rw [hn] at this
      exact absurd this (by simp)
  · intro he; subst he; rfl

theorem heapPopMin_perm {h : List HeapItem} {it : HeapItem} {h1 : List HeapItem}
    (hp : heapPopMin h = some (it, h1)) : List.Perm h (it :: h1) := by
  induction h generalizing it h1 with
  | nil => exact absurd hp (by simp [heapPopMin])
  | cons x xs ih =>
    rw [heapPopMin] at hp
    split at hp
    · rename_i hx
      simp only [Option.some.injEq, Prod.mk.injEq] at hp
      obtain ⟨rfl, rfl⟩ := hp
      have hnil : xs = [] := (heapPopMin_none_iff xs).mp hx
      subst hnil
      exact List.Perm.refl _
    · rename_i m rest hx
      split at hp
      · simp only [Option.some.injEq, Prod.mk.injEq] at hp
        obtain ⟨rfl, rfl⟩ := hp
        exact List.Perm.refl _
      · simp only [Option.some.injEq, Prod.mk.injEq] at hp
        obtain ⟨rfl, rfl⟩ := hp
        exact ((ih hx).cons x).trans (List.Perm.swap m x rest)

theorem heapPopMin_mem {h : List HeapItem} {it : HeapItem} {h1 : List HeapItem}
    (hp : heapPopMin h = some (it, h1)) : it ∈ h :=
  (heapPopMin_perm hp).symm.subset (List.mem_cons_self it h1)

theorem heapPopMin_min {h : List HeapItem} {it : HeapItem} {h1 : List HeapItem}
    (hp : heapPopMin h = some (it, h1)) : ∀ x ∈ h, tripleLe it.1 x.1 = true := by
  induction h generalizing it h1 with
  | nil => exact absurd hp (by simp [heapPopMin])
  | cons x xs ih =>
    rw [heapPopMin] at hp
    split at hp
    · rename_i hx
      simp only [Option.some.injEq, Prod.mk.injEq] at hp
      obtain ⟨rfl, rfl⟩ := hp
      have hnil : xs = [] := (heapPopMin_none_iff xs).mp hx
      subst hnil
      intro y hy
      rcases List.mem_cons.mp hy with hy1 | hy2
      · subst hy1; exact tripleLe_refl _
      · exact absurd hy2 (List.not_mem_nil y)
    · rename_i m rest hx
      split at hp
      · rename_i hc
        simp only [Option.some.injEq, Prod.mk.injEq] at hp
        obtain ⟨rfl, rfl⟩ := hp
        intro y hy
        rcases List.mem_cons.mp hy with hy1 | hy2
        · subst hy1; exact tripleLe_refl _
        · exact tripleLe_trans hc (ih hx y hy2)
      · rename_i hc
        simp only [Option.some.injEq, Prod.mk.injEq] at hp
        obtain ⟨rfl, rfl⟩ := hp
        have hmx : tripleLe m.1 x.1 = true := (tripleLe_total x.1 m.1).resolve_left hc
        intro y hy
        rcases List.mem_cons.mp hy with hy1 | hy2
        · subst hy1; exact hmx
        · exact ih hx y hy2

theorem containerEntries_length {V : Type} (st : DataStore V) (tn : String) :
    (containerEntries st tn).length = (containerOf st tn).length :=
  List.length_map _ _

theorem entryAt_eq {V : Type} (st : DataStore V) (tn : String) (i : Nat)
    (h : i < (containerOf st tn).length) :
    entryAt st tn i = (containerEntries st tn).getD i (junkEntry V) := by
  unfold entryAt containerEntries derefList containerOf
  unfold containerOf at h
  rw [List.getD_eq_get?, List.getD_eq_get?, List.get?_map, List.get?_eq_get h]
  rfl

theorem getD_set_self (l : List Nat) (p v : Nat) (h : p < l.length) :
    (l.set p v).getD p 0 = v := by
  rw [List.getD_eq_get?, List.get?_set_eq_of_lt _ h]
  rfl

theorem getD_set_ne (l : List Nat) (p q v : Nat) (h : p ≠ q) :
    (l.set p v).getD q 0 = l.getD q 0 := by
  rw [List.getD_eq_get?, List.get?_set_ne _ _ h, ← List.getD_eq_get?]

theorem sorted_consec {V : Type} {l : List (Entry V)}
    (hs : List.Pairwise
      (fun a b => keyLe (a.begin, a.end_) (b.begin, b.end_) = true) l)
    (i : Nat) (h : i + 1 < l.length) :
    keyLe ((l.getD i (junkEntry V)).begin, (l.getD i (junkEntry V)).end_)
      ((l.getD (i + 1) (junkEntry V)).begin, (l.getD (i + 1) (junkEntry V)).end_) = true := by
  have hi : i < l.length := by omega
  have hr := List.pairwise_iff_get.mp hs ⟨i, hi⟩ ⟨i + 1, h⟩ (by exact Nat.lt_succ_self i)
  rw [List.getD_eq_get?, List.getD_eq_get?, List.get?_eq_get hi, List.get?_eq_get h]
  exact hr

theorem idxOfName_getD (names : List String) (hnd : names.Nodup) (p : Nat)
    (hp : p < names.length) : idxOfName names (names.getD p "") = p := by
  induction names generalizing p with
  | nil => exact absurd hp (by simp)
  | cons n0 rest ih =>
    obtain ⟨hnot, hnd2⟩ := List.nodup_cons.mp hnd
    cases p with
    | zero => simp [idxOfName]
    | succ p =>
      have hp2 : p < rest.length := by simpa using hp
      have hmem : rest.getD p "" ∈ rest := by
        rw [List.getD_eq_get?, List.get?_eq_get hp2]
        exact List.get_mem rest p hp2
      have hne : n0 ≠ rest.getD p "" := fun he => hnot (he ▸ hmem)
      rw [List.getD_cons_succ, idxOfName, if_neg hne, ih hnd2 p hp2]

theorem flatMap_congr_mem {α β : Type _} (idxs : List α) (f g : α → List β)
    (h : ∀ q ∈ idxs, f q = g q) : idxs.flatMap f = idxs.flatMap g := by
  induction idxs with
  | nil => rfl
  | cons q rest ih =>
    rw [List.flatMap_cons, List.flatMap_cons, h q (List.mem_cons_self q rest),
      ih (fun q2 hq2 => h q2 (List.mem_cons_of_mem _ hq2))]

theorem flatMap_pull_one {α β : Type _} (idxs : List α) (f g : α → List β) (p : α) (x : β)
    (hagree : ∀ q ∈ idxs, q ≠ p → f q = g q) (hp : f p = x :: g p)
    (hmem : p ∈ idxs) (hnd : idxs.Nodup) :
    List.Perm (idxs.flatMap f) (x :: idxs.flatMap g) := by
  induction idxs with
  | nil => exact absurd hmem (List.not_mem_nil p)
  | cons q rest ih =>
    obtain ⟨hnot, hnd2⟩ := List.nodup_cons.mp hnd
    rw [List.flatMap_cons, List.flatMap_cons]
    by_cases he : q = p
    · subst he
      have hrest : rest.flatMap f = rest.flatMap g :=
        flatMap_congr_mem rest f g
          (fun q2 hq2 => hagree q2 (List.mem_cons_of_mem _ hq2)
            (fun hqp => hnot (hqp ▸ hq2)))
      rw [hp, hrest]
      exact List.Perm.refl _
    · have hmem2 : p ∈ rest := by
        rcases List.mem_cons.mp hmem with h2 | h2
        · exact absurd h2.symm he
        · exact h2
      have hfq : f q = g q := hagree q (List.mem_cons_self q rest) he
      rw [hfq]
      have hperm := ih (fun q2 hq2 hne => hagree q2 (List.mem_cons_of_mem _ hq2) hne) hmem2 hnd2
      exact (hperm.append_left (g q)).trans List.perm_middle

theorem flatMap_range_getD {β : Type _} (names : List String) (f : String → List β) :
    (List.range names.length).flatMap (fun p => f (names.getD p "")) = names.flatMap f := by
  induction names with
  | nil => rfl
  | cons tn rest ih =>
    rw [List.length_cons, List.range_succ_eq_map, List.flatMap_cons, List.flatMap_map]
    simp only [List.getD_cons_zero, List.getD_cons_succ]
    rw [List.flatMap_cons]
    exact congrArg (f tn ++ ·) ih

theorem mem_streams_of_mem {h : List HeapItem} {it : HeapItem} (hm : it ∈ h) :
    streamIdx it ∈ h.map streamIdx :=
  List.mem_map_of_mem streamIdx hm

theorem coRem_nil {V : Type} (st : DataStore V) (names : List String)
    (pointers : List Nat) : coRem st names pointers [] = [] := by
  unfold coRem coRemStream
  simp

/-- The main induction for the k-way merge loop: with the invariant and
enough fuel, the loop emits a permutation of the still-pending records,
the emitted sequence is sorted by the ordering triple, and every emitted
record is bounded below by some current heap item. -/
theorem coIterLoop_spec {V : Type} (st : DataStore V) (names : List String)
    (hnd : names.Nodup)
    (hsorted : ∀ tn ∈ names, List.Pairwise
      (fun a b => keyLe (a.begin, a.end_) (b.begin, b.end_) = true)
      (containerEntries st tn))
    (htag : ∀ tn ∈ names, ∀ en ∈ containerEntries st tn, en.type_name = tn) :
    ∀ (fuel : Nat) (pointers : List Nat) (h : List HeapItem),
      CoInv st names pointers h →
      (coRem st names pointers h).length ≤ fuel →
      List.Perm (coIterLoop st fuel pointers h) (coRem st names pointers h) ∧
      List.Pairwise (fun a b =>
        tripleLe (entryTriple names a) (entryTriple names b) = true)
        (coIterLoop st fuel pointers h) ∧
      (∀ x ∈ coIterLoop st fuel pointers h,
        ∃ it ∈ h, tripleLe it.1 (entryTriple names x) = true) := by
  intro fuel
  induction fuel with
  | zero =>
    intro pointers h hinv hlen
    have hrem : coRem st names pointers h = [] :=
      List.length_eq_zero.mp (Nat.le_zero.mp hlen)
    exact ⟨hrem ▸ List.Perm.nil, List.Pairwise.nil,
      fun x hx => absurd hx (List.not_mem_nil x)⟩
  | succ fuel ih =>
    intro pointers h hinv hlen
    obtain ⟨hplen, hndstream, hitems⟩ := hinv
    rw [coIterLoop]
    split
    · rename_i hpop
      have hnil : h = [] := (heapPopMin_none_iff h).mp hpop
      subst hnil
      rw [coRem_nil]
      exact ⟨List.Perm.nil, List.Pairwise.nil,
        fun x hx => absurd hx (List.not_mem_nil x)⟩
    · rename_i b0 e0 p tn0 h1 hpop
      have hmem_it := heapPopMin_mem hpop
      have hperm_h := heapPopMin_perm hpop
      have hmin := heapPopMin_min hpop
      obtain ⟨hpn, hptr, hform⟩ := hitems _ hmem_it
      have hsi : streamIdx ((b0, e0, p), tn0) = p := rfl
      rw [hsi] at hpn hptr hform
      have hb0 : (entAt st names p (pointers.getD p 0)).begin = b0 :=
        (congrArg (fun q : HeapItem => q.1.1) hform).symm
      have he0 : (entAt st names p (pointers.getD p 0)).end_ = e0 :=
        (congrArg (fun q : HeapItem => q.1.2.1) hform).symm
      have htn0 : tn0 = (entAt st names p (pointers.getD p 0)).type_name :=
        congrArg (fun q : HeapItem => q.2) hform
      have hpmem : names.getD p "" ∈ names := by
        rw [List.getD_eq_get?, List.get?_eq_get hpn]
        exact List.get_mem names p hpn
      have hget : entAt st names p (pointers.getD p 0) =
          (containerEntries st (names.getD p "")).get ⟨pointers.getD p 0, hptr⟩ := by
        unfold entAt
        exact List.getD_eq_get _ _ hptr
      have hent_mem : entAt st names p (pointers.getD p 0) ∈
          containerEntries st (names.getD p "") := by
        rw [hget]
        exact List.get_mem _ _ hptr
      have htn0p : tn0 = names.getD p "" :=
        htn0.trans (htag _ hpmem _ hent_mem)
      have hraw : (lookupKV st.elements tn0).getD [] = containerOf st (names.getD p "") := by
        rw [htn0p]; rfl
      have hrawlen : ((lookupKV st.elements tn0).getD []).length =
          (containerEntries st (names.getD p "")).length := by
        rw [hraw, containerEntries_length]
      have hptr_raw : pointers.getD p 0 < (containerOf st (names.getD p "")).length := by
        rw [← containerEntries_length]; exact hptr
      have hentry : entryAt st tn0 (pointers.getD p 0) =
          entAt st names p (pointers.getD p 0) := by
        rw [htn0p]; exact entryAt_eq st _ _ hptr_raw
      have hidx : idxOfName names (entAt st names p (pointers.getD p 0)).type_name = p := by
        rw [htag _ hpmem _ hent_mem]
        exact idxOfName_getD names hnd p hpn
      have htriple : entryTriple names (entAt st names p (pointers.getD p 0)) = (b0, e0, p) := by
        unfold entryTriple
        rw [hb0, he0, hidx]
      have hmemstream : p ∈ h.map streamIdx := mem_streams_of_mem hmem_it
      have hstream_perm : List.Perm (h.map streamIdx) (p :: h1.map streamIdx) :=
        hperm_h.map streamIdx
      have hnd_cons : (p :: h1.map streamIdx).Nodup :=
        (hstream_perm.nodup_iff).mp hndstream
      have hp_notin : p ∉ h1.map streamIdx := (List.nodup_cons.mp hnd_cons).1
      have hnd1 : (h1.map streamIdx).Nodup := (List.nodup_cons.mp hnd_cons).2
      have hmem_h_of_h1 : ∀ it ∈ h1, it ∈ h := fun it hm =>
        hperm_h.symm.subset (List.mem_cons_of_mem _ hm)
      have hstream_iff : ∀ q, q ≠ p → (q ∈ h.map streamIdx ↔ q ∈ h1.map streamIdx) := by
        intro q hq
        rw [hstream_perm.mem_iff]
        constructor
        · intro hmem
          rcases List.mem_cons.mp hmem with h2 | h2
          · exact absurd h2 hq
          · exact h2
        · exact fun h2 => List.mem_cons_of_mem _ h2
      have hdrop : (containerEntries st (names.getD p "")).drop (pointers.getD p 0) =
          entAt st names p (pointers.getD p 0) ::
          (containerEntries st (names.getD p "")).drop (pointers.getD p 0 + 1) := by
        rw [List.drop_eq_get_cons hptr, hget]
      split
      · -- a next record exists in stream p: advance the pointer, push its tuple
        rename_i hlt
        have hlt2 : pointers.getD p 0 + 1 < (containerEntries st (names.getD p "")).length := by
          rw [← hrawlen]; exact hlt
        have hptr1_raw : pointers.getD p 0 + 1 < (containerOf st (names.getD p "")).length := by
          rw [← containerEntries_length]; exact hlt2
        have hentry1 : entryAt st tn0 (pointers.getD p 0 + 1) =
            entAt st names p (pointers.getD p 0 + 1) := by
          rw [htn0p]; exact entryAt_eq st _ _ hptr1_raw
        rw [hentry, hentry1]
        have hppl : p < pointers.length := by rw [hplen]; exact hpn
        -- the pushed item is exactly `mkItem` for the advanced pointer
        have hnewitem : (((entAt st names p (pointers.getD p 0 + 1)).begin,
              (entAt st names p (pointers.getD p 0 + 1)).end_, p),
              (entAt st names p (pointers.getD p 0 + 1)).type_name) =
            mkItem st names p (pointers.getD p 0 + 1) := rfl
        rw [hnewitem]
        have hinv1 : CoInv st names (pointers.set p (pointers.getD p 0 + 1))
            (h1 ++ [mkItem st names p (pointers.getD p 0 + 1)]) := by
          refine ⟨?_, ?_, ?_⟩
          · rw [List.length_set]; exact hplen
          · rw [List.map_append]
            rw [List.nodup_append]
            refine ⟨hnd1, by simp [mkItem, streamIdx], ?_⟩
            intro q hq hq2
            have : q = p := by
              simpa [mkItem, streamIdx] using hq2
            exact hp_notin (this ▸ hq)
          · intro it hit
            rcases List.mem_append.mp hit with hcase | hcase
            · obtain ⟨hlt3, hlt4, hform2⟩ := hitems it (hmem_h_of_h1 it hcase)
              have hne : streamIdx it ≠ p := by
                intro he
                exact hp_notin (he ▸ mem_streams_of_mem hcase)
              rw [getD_set_ne _ _ _ _ (fun h2 => hne h2.symm)]
              exact ⟨hlt3, hlt4, hform2⟩
            · rcases List.mem_singleton.mp hcase with rfl
              refine ⟨?_, ?_, ?_⟩
              · simpa [mkItem, streamIdx] using hpn
              · have hsi2 : streamIdx (mkItem st names p (pointers.getD p 0 + 1)) = p := rfl
                rw [hsi2, getD_set_self _ _ _ hppl]
                exact hlt2
              · have hsi : streamIdx (mkItem st names p (pointers.getD p 0 + 1)) = p := rfl
                rw [hsi, getD_set_self _ _ _ hppl]
        -- the records still pending: stream p advances by one, others unchanged
        have hremp : coRemStream st names pointers h p =
            entAt st names p (pointers.getD p 0) ::
            coRemStream st names (pointers.set p (pointers.getD p 0 + 1))
              (h1 ++ [mkItem st names p (pointers.getD p 0 + 1)]) p := by
          unfold coRemStream
          rw [if_pos hmemstream, if_pos (by
            rw [List.map_append]
            exact List.mem_append.mpr (Or.inr (by simp [mkItem, streamIdx])))]
          rw [getD_set_self _ _ _ hppl]
          exact hdrop
        have hremq : ∀ q ∈ List.range names.length, q ≠ p →
            coRemStream st names pointers h q =
            coRemStream st names (pointers.set p (pointers.getD p 0 + 1))
              (h1 ++ [mkItem st names p (pointers.getD p 0 + 1)]) q := by
          intro q _ hq
          unfold coRemStream
          have hmemiff : q ∈ h.map streamIdx ↔
              q ∈ (h1 ++ [mkItem st names p (pointers.getD p 0 + 1)]).map streamIdx := by
            rw [List.map_append, hstream_iff q hq]
            constructor
            · exact fun h2 => List.mem_append.mpr (Or.inl h2)
            · intro h2
              rcases List.mem_append.mp h2 with h3 | h3
              · exact h3
              · exact absurd (by simpa [mkItem, streamIdx] using h3) hq
          rw [getD_set_ne _ _ _ _ (fun h2 => hq h2.symm)]
          by_cases hmem : q ∈ h.map streamIdx
          · rw [if_pos hmem, if_pos (hmemiff.mp hmem)]
          · rw [if_neg hmem, if_neg (fun hc => hmem (hmemiff.mpr hc))]
        have hremperm : List.Perm (coRem st names pointers h)
            (entAt st names p (pointers.getD p 0) ::
              coRem st names (pointers.set p (pointers.getD p 0 + 1))
                (h1 ++ [mkItem st names p (pointers.getD p 0 + 1)])) := by
          unfold coRem
          exact flatMap_pull_one _ _ _ p _
            (fun q hq hqp => (hremq q hq hqp).symm ▸ rfl)
            hremp (List.mem_range.mpr hpn) (List.nodup_range _)
        have hlen1 : (coRem st names (pointers.set p (pointers.getD p 0 + 1))
            (h1 ++ [mkItem st names p (pointers.getD p 0 + 1)])).length ≤ fuel := by
          have := hremperm.length_eq
          simp only [List.length_cons] at this
          omega
        obtain ⟨ihPerm, ihPair, ihBound⟩ := ih _ _ hinv1 hlen1
        -- the popped tuple bounds the pushed one: stream p is sorted
        have hle_next : tripleLe (b0, e0, p)
            (mkItem st names p (pointers.getD p 0 + 1)).1 = true := by
          have hk := sorted_consec (hsorted _ hpmem) (pointers.getD p 0) hlt2
          have := keyLe_tripleLe p hk
          rw [← hb0, ← he0]
          exact this
        refine ⟨?_, ?_, ?_⟩
        · exact (ihPerm.cons _).trans hremperm.symm
        · refine List.pairwise_cons.mpr ⟨?_, ihPair⟩
          intro x hx
          obtain ⟨it2, hit2, hle2⟩ := ihBound x hx
          rw [htriple]
          rcases List.mem_append.mp hit2 with hcase | hcase
          · exact tripleLe_trans (hmin it2 (hmem_h_of_h1 it2 hcase)) hle2
          · rcases List.mem_singleton.mp hcase with rfl
            exact tripleLe_trans hle_next hle2
        · intro x hx
          rcases List.mem_cons.mp hx with hx1 | hx2
          · subst hx1
            exact ⟨((b0, e0, p), tn0), hmem_it, by rw [htriple]; exact tripleLe_refl _⟩
          · obtain ⟨it2, hit2, hle2⟩ := ihBound x hx2
            rcases List.mem_append.mp hit2 with hcase | hcase
            · exact ⟨it2, hmem_h_of_h1 it2 hcase, hle2⟩
            · rcases List.mem_singleton.mp hcase with rfl
              exact ⟨((b0, e0, p), tn0), hmem_it, tripleLe_trans hle_next hle2⟩
      · -- stream p is exhausted after this record: no push
        rename_i hge
        have hend : pointers.getD p 0 + 1 =
            (containerEntries st (names.getD p "")).length := by
          rw [← hrawlen]
          have := Nat.not_lt.mp hge
          have h2 : pointers.getD p 0 < ((lookupKV st.elements tn0).getD []).length := by
            rw [hrawlen]; exact hptr
          omega
        rw [hentry]
        have hinv1 : CoInv st names pointers h1 := by
          unfold CoInv
          refine ⟨hplen, hnd1, ?_⟩
          intro it hit
          exact hitems it (hmem_h_of_h1 it hit)
        have hremp : coRemStream st names pointers h p =
            entAt st names p (pointers.getD p 0) ::
            coRemStream st names pointers h1 p := by
          unfold coRemStream
          rw [if_pos hmemstream, if_neg hp_notin]
          rw [hdrop, hend, List.drop_length]
        have hremq : ∀ q ∈ List.range names.length, q ≠ p →
            coRemStream st names pointers h q = coRemStream st names pointers h1 q := by
          intro q _ hq
          unfold coRemStream
          by_cases hmem : q ∈ h.map streamIdx
          · rw [if_pos hmem, if_pos ((hstream_iff q hq).mp hmem)]
          · rw [if_neg hmem, if_neg (fun hc => hmem ((hstream_iff q hq).mpr hc))]
        have hremperm : List.Perm (coRem st names pointers h)
            (entAt st names p (pointers.getD p 0) :: coRem st names pointers h1) := by
          unfold coRem
          exact flatMap_pull_one _ _ _ p _
            (fun q hq hqp => (hremq q hq hqp).symm ▸ rfl)
            hremp (List.mem_range.mpr hpn) (List.nodup_range _)
        have hlen1 : (coRem st names pointers h1).length ≤ fuel := by
          have := hremperm.length_eq
          simp only [List.length_cons] at this
          omega
        obtain ⟨ihPerm, ihPair, ihBound⟩ := ih _ _ hinv1 hlen1
        refine ⟨?_, ?_, ?_⟩
        · exact (ihPerm.cons _).trans hremperm.symm
        · refine List.pairwise_cons.mpr ⟨?_, ihPair⟩
          intro x hx
          obtain ⟨it2, hit2, hle2⟩ := ihBound x hx
          rw [htriple]
          exact tripleLe_trans (hmin it2 (hmem_h_of_h1 it2 hit2)) hle2
        · intro x hx
          rcases List.mem_cons.mp hx with hx1 | hx2
          · subst hx1
            exact ⟨((b0, e0, p), tn0), hmem_it, by rw [htriple]; exact tripleLe_refl _⟩
          · obtain ⟨it2, hit2, hle2⟩ := ihBound x hx2
            exact ⟨it2, hmem_h_of_h1 it2 hit2, hle2⟩

theorem getD_replicate_zero (n i : Nat) : (List.replicate n 0).getD i 0 = 0 := by
  rcases Nat.lt_or_ge i n with h | h
  · rw [List.getD_eq_getElem _ _ (by simpa using h)]
    simp
  · rw [List.getD_eq_default _ _ (by simpa using h)]

/-- `first_entries` really is the list of first records: one per input
name, the `p`-th being the record at position 0 of the `p`-th named
container. -/
theorem coSeed_spec {V : Type} (st : DataStore V) (names : List String)
    (fe : List (Entry V)) (h : coSeed st names = Except.ok fe) :
    fe.length = names.length ∧
    ∀ p, p < names.length → fe.getD p (junkEntry V) = entAt st names p 0 := by
  induction names generalizing fe with
  | nil =>
    rw [coSeed] at h
    injection h with h2
    subst h2
    exact ⟨rfl, fun p hp => absurd hp (Nat.not_lt_zero p)⟩
  | cons tn rest ih =>
    rw [coSeed] at h
    cases hl : lookupKV st.elements tn with
    | none => rw [hl] at h; exact absurd h (by simp)
    | some l =>
      rw [hl] at h
      cases l with
      | nil => exact absurd h (by simp)
      | cons t ts =>
        cases hrest : coSeed st rest with
        | error err => rw [hrest] at h; exact absurd h (by simp)
        | ok firsts =>
          rw [hrest] at h
          have h3 : Except.ok (derefD st.heap t :: firsts) = Except.ok fe := h
          injection h3 with h2
          subst h2
          obtain ⟨hlen2, hget2⟩ := ih firsts hrest
          refine ⟨by simp [hlen2], ?_⟩
          intro p hp
          cases p with
          | zero =>
            show (derefD st.heap t :: firsts).getD 0 (junkEntry V) = entAt st (tn :: rest) 0 0
            unfold entAt containerEntries containerOf
            simp [hl, derefList]
          | succ p =>
            have hp2 : p < rest.length := by
              simp only [List.length_cons] at hp
              omega
            have hrec := hget2 p hp2
            simpa [entAt, List.getD_cons_succ] using hrec

/-- C4: merge ordering of `co_iterator_annotation_like`.  For distinct
type names whose containers are all present and non-empty, sorted by
`(begin, end)`, and whose records carry their own type name (the last two
hold in every reachable store), the call succeeds and yields exactly the
records of the named containers — a permutation of their concatenation —
sorted by the ordering triple
`(begin, end, index of the type name in the input list)`. -/
theorem c4_merge_ordering {V : Type} (st : DataStore V) (names : List String)
    (hnd : names.Nodup)
    (hnonempty : ∀ tn ∈ names, lookupKV st.elements tn ≠ none ∧
      lookupKV st.elements tn ≠ some ([] : List Nat))
    (hsorted : ∀ tn ∈ names, List.Pairwise
      (fun a b => keyLe (a.begin, a.end_) (b.begin, b.end_) = true)
      (containerEntries st tn))
    (htag : ∀ tn ∈ names, ∀ en ∈ containerEntries st tn, en.type_name = tn) :
    ∃ out, co_iterator_annotation_like st names = Except.ok out ∧
      List.Perm out (names.flatMap (containerEntries st)) ∧
      List.Pairwise (fun a b =>
        tripleLe (entryTriple names a) (entryTriple names b) = true) out := by
  have hgood : ∀ tn ∈ names, ∃ l, lookupKV st.elements tn = some l ∧ l ≠ [] := by
    intro tn htn
    obtain ⟨h1, h2⟩ := hnonempty tn htn
    cases hl : lookupKV st.elements tn with
    | none => exact absurd hl h1
    | some l =>
      refine ⟨l, rfl, ?_⟩
      intro hnil
      exact h2 (hnil ▸ hl)
  obtain ⟨fe, hfe⟩ := coSeed_ok_of_all_good st names hgood
  obtain ⟨hlen, hget⟩ := coSeed_spec st names fe hfe
  have hco : co_iterator_annotation_like st names = Except.ok (coIterLoop st
      ((names.map (fun tn => ((lookupKV st.elements tn).getD []).length)).sum)
      (List.replicate names.length 0)
      (fe.enum.map (fun pe => ((pe.2.begin, pe.2.end_, pe.1), pe.2.type_name)))) := by
    rw [co_iterator_annotation_like, hfe]
  have hstreams : ((fe.enum.map
      (fun pe => ((pe.2.begin, pe.2.end_, pe.1), pe.2.type_name))).map streamIdx) =
      List.range names.length := by
    rw [List.map_map]
    have h1 : (streamIdx ∘ fun pe : Nat × Entry V =>
        ((pe.2.begin, pe.2.end_, pe.1), pe.2.type_name)) = Prod.fst := rfl
    rw [h1, List.enum_map_fst, hlen]
  have hitem0 : ∀ it ∈ fe.enum.map
      (fun pe => ((pe.2.begin, pe.2.end_, pe.1), pe.2.type_name)),
      streamIdx it < names.length ∧
      (List.replicate names.length 0).getD (streamIdx it) 0 <
        (containerEntries st (names.getD (streamIdx it) "")).length ∧
      it = mkItem st names (streamIdx it)
        ((List.replicate names.length 0).getD (streamIdx it) 0) := by
    intro it hit
    obtain ⟨⟨i, a⟩, hpe, rfl⟩ := List.mem_map.mp hit
    have hgi : fe.get? i = some a := List.mk_mem_enum_iff_get?.mp hpe
    obtain ⟨hilen, _⟩ := List.get?_eq_some.mp hgi
    have hin : i < names.length := hlen ▸ hilen
    have hmem : names.getD i "" ∈ names := by
      rw [List.getD_eq_get?, List.get?_eq_get hin]
      exact List.get_mem names i hin
    refine ⟨?_, ?_, ?_⟩
    · exact hin
    · show (List.replicate names.length 0).getD i 0 <
        (containerEntries st (names.getD i "")).length
      rw [getD_replicate_zero]
      obtain ⟨l, hl, hlne⟩ := hgood _ hmem
      have hleq : (containerEntries st (names.getD i "")).length = l.length := by
        rw [containerEntries_length]
        unfold containerOf
        rw [hl]
        rfl
      rw [hleq]
      exact List.length_pos.mpr hlne
    · show ((a.begin, a.end_, i), a.type_name) =
        mkItem st names i ((List.replicate names.length 0).getD i 0)
      rw [getD_replicate_zero]
      have ha : a = entAt st names i 0 := by
        have h1 : fe.getD i (junkEntry V) = a := by
          rw [List.getD_eq_get?, hgi]
          rfl
        rw [← h1]
        exact hget i hin
      rw [ha]
      rfl
  have hinv0 : CoInv st names (List.replicate names.length 0)
      (fe.enum.map (fun pe => ((pe.2.begin, pe.2.end_, pe.1), pe.2.type_name))) :=
    ⟨by simp, by rw [hstreams]; exact List.nodup_range _, hitem0⟩
  have hrem0 : coRem st names (List.replicate names.length 0)
      (fe.enum.map (fun pe => ((pe.2.begin, pe.2.end_, pe.1), pe.2.type_name))) =
      names.flatMap (containerEntries st) := by
    unfold coRem
    rw [← flatMap_range_getD names (containerEntries st)]
    apply flatMap_congr_mem
    intro q hq
    unfold coRemStream
    rw [if_pos (by rw [hstreams]; exact hq), getD_replicate_zero, List.drop_zero]
  have hfuel : (coRem st names (List.replicate names.length 0)
      (fe.enum.map (fun pe => ((pe.2.begin, pe.2.end_, pe.1), pe.2.type_name)))).length ≤
      (names.map (fun tn => ((lookupKV st.elements tn).getD []).length)).sum := by
    rw [hrem0, List.length_flatMap]
    have hmapeq : names.map (List.length ∘ containerEntries st) =
        names.map (fun tn => ((lookupKV st.elements tn).getD []).length) := by
      apply List.map_congr_left
      intro tn _
      show (containerEntries st tn).length = _
      rw [containerEntries_length]
      rfl
    rw [hmapeq]
  obtain ⟨hPerm, hPair, _⟩ := coIterLoop_spec st names hnd hsorted htag
    ((names.map (fun tn => ((lookupKV st.elements tn).getD []).length)).sum)
    (List.replicate names.length 0)
    (fe.enum.map (fun pe => ((pe.2.begin, pe.2.end_, pe.1), pe.2.type_name)))
    hinv0 hfuel
  exact ⟨_, hco, hrem0 ▸ hPerm, hPair⟩

/-- The merge example of the claim: containers `A = [(0,5),(10,12)]`
(tids 1, 2) and `B = [(2,4),(10,12)]` (tids 3, 4). -/
def mergeStore : DataStore Nat :=
  (add_annotation_raw tieEnv
    (add_annotation_raw tieEnv
      (add_annotation_raw tieEnv
        (add_annotation_raw tieEnv (initStore Nat) 1 "A" 0 5).2
        2 "A" 10 12).2
      3 "B" 2 4).2
    4 "B" 10 12).2

/-- Witness for C4 at the claim's example: merging `A = [(0,5),(10,12)]`
and `B = [(2,4),(10,12)]` with type order `[A, B]` succeeds, and the
yielded sequence is exactly `(0,5)@A, (2,4)@B, (10,12)@A, (10,12)@B`. -/
theorem c4_merge_ordering_witness :
    (["A", "B"].Nodup ∧
      (∀ tn ∈ ["A", "B"], lookupKV mergeStore.elements tn ≠ none ∧
        lookupKV mergeStore.elements tn ≠ some ([] : List Nat)) ∧
      (∀ tn ∈ ["A", "B"], List.Pairwise
        (fun a b => keyLe (a.begin, a.end_) (b.begin, b.end_) = true)
        (containerEntries mergeStore tn)) ∧
      (∀ tn ∈ ["A", "B"], ∀ en ∈ containerEntries mergeStore tn,
        en.type_name = tn)) ∧
    (∃ out, co_iterator_annotation_like mergeStore ["A", "B"] = Except.ok out ∧
      List.Perm out (["A", "B"].flatMap (containerEntries mergeStore)) ∧
      List.Pairwise (fun a b => tripleLe (entryTriple ["A", "B"] a)
        (entryTriple ["A", "B"] b) = true) out) ∧
    co_iterator_annotation_like mergeStore ["A", "B"] =
      Except.ok [⟨0, 5, 1, "A", []⟩, ⟨2, 4, 3, "B", []⟩,
        ⟨10, 12, 2, "A", []⟩, ⟨10, 12, 4, "B", []⟩] :=
  ⟨⟨by decide, by decide, by decide, by decide⟩,
   c4_merge_ordering mergeStore ["A", "B"]
     (by decide) (by decide) (by decide) (by decide),
   by decide⟩

end Forte
